import Mathlib

/-!
Shallow embedding of the ReAct agent scaffold (`response_parser.py`, `agent.py`)
and proofs about it.  Python strings are modelled as `String`/`List Char`
(Python `str` indexing is by code point, matching `List Char` indices);
Python exceptions are modelled with `Except`; the LLM collaborator is an
oracle `Nat → String` giving the response text of each loop iteration.
-/

namespace ReactSwe

/-- Whitespace characters stripped by Python `str.strip()` (ASCII range). -/
def isPySpace (c : Char) : Bool :=
  c = ' ' || c = '\t' || c = '\n' || c = '\r' || c = Char.ofNat 11 || c = Char.ofNat 12

/-- Python `str.lstrip()` on a character list. -/
def ldropWS (l : List Char) : List Char := l.dropWhile isPySpace

/-- Python `str.rstrip()` on a character list. -/
def rdropWS (l : List Char) : List Char := (l.reverse.dropWhile isPySpace).reverse

/-- Python `str.strip()` on a character list. -/
def pyStripL (l : List Char) : List Char := rdropWS (ldropWS l)

/-- Python `str.strip()`. -/
def pyStrip (s : String) : String := (pyStripL s.data).asString

/-- Python `str.rstrip()`. -/
def pyRStrip (s : String) : String := (rdropWS s.data).asString

/-- Helper for `findOcc`: leftmost index `≥ j` at which `pat` occurs in the
remaining suffix (the suffix is consumed structurally). -/
def findOccAux (pat : List Char) : List Char → Nat → Option Nat
  | [], j => if pat.isPrefixOf [] then some j else none
  | c :: t, j => if pat.isPrefixOf (c :: t) then some j else findOccAux pat t (j + 1)

/-- Index of the leftmost occurrence of `pat` in `l` (Python `str.find`). -/
def findOcc (l pat : List Char) : Option Nat := findOccAux pat l 0

/-- Python substring containment `pat in s`. -/
def containsL (l pat : List Char) : Bool := (findOcc l pat).isSome

/-- Python substring containment on `String`. -/
def containsStr (s pat : String) : Bool := containsL s.data pat.data

/-- Helper for `rfindL`: scan candidate start indices downward from `i`. -/
def rfindAux (pat l : List Char) : Nat → Option Nat
  | 0 => if pat.isPrefixOf l then some 0 else none
  | i + 1 => if pat.isPrefixOf (l.drop (i + 1)) then some (i + 1) else rfindAux pat l i

/-- Index of the rightmost occurrence of `pat` in `l` (Python `str.rfind`,
with `none` for Python's `-1`). -/
def rfindL (l pat : List Char) : Option Nat :=
  if pat.length ≤ l.length then rfindAux pat l (l.length - pat.length) else none

/-- Fuel-driven implementation of Python `str.split(sep)` (leftmost,
non-overlapping, keeps empty parts).  The fuel is only a structural-recursion
device; `splitOnL` supplies enough of it. -/
def splitOnFuel (sep : List Char) : Nat → List Char → List (List Char)
  | 0, l => [l]
  | n + 1, l =>
    match findOcc l sep with
    | none => [l]
    | some i => l.take i :: splitOnFuel sep n (l.drop (i + sep.length))

/-- Python `str.split(sep)` on character lists. -/
def splitOnL (sep l : List Char) : List (List Char) := splitOnFuel sep l.length l

/-- Python `str.split(sep, 1)` on character lists, `none` when `sep` is absent. -/
def splitOnceL (sep l : List Char) : Option (List Char × List Char) :=
  match findOcc l sep with
  | none => none
  | some i => some (l.take i, l.drop (i + sep.length))

end ReactSwe

namespace ReactSwe.ResponseParser

/-- Literal begin marker of the call grammar. -/
def BEGIN_CALL : String := "----BEGIN_FUNCTION_CALL----"

/-- Literal end marker of the call grammar. -/
def END_CALL : String := "----END_FUNCTION_CALL----"

/-- Literal argument separator of the call grammar. -/
def ARG_SEP : String := "----ARG----"

/-- Literal value separator of the call grammar. -/
def VALUE_SEP : String := "----VALUE----"

/-- Canonical response template included in corrective messages
(`ResponseParser.response_format`). -/
def response_format : String :=
  "\nyour_thoughts_here\n...\n" ++ BEGIN_CALL ++ "\nfunction_name\n" ++ ARG_SEP ++
  "\narg1_name\n" ++ VALUE_SEP ++ "\narg1_value (can be multiline)\n" ++ ARG_SEP ++
  "\narg2_name\n" ++ VALUE_SEP ++ "\narg2_value (can be multiline)\n...\n" ++ END_CALL ++
  "\n\nRules:\n- Exactly one function call per response.\n" ++
  "- function_name MUST match a registered tool (e.g., run_bash_cmd, finish).\n" ++
  "- Every argument must include both a name and value block, even if the value is empty.\n" ++
  "- Never omit the final function call.\n\n" ++
  "DO NOT CHANGE ANY TEST! AS THEY WILL BE USED FOR EVALUATION.\n"

/-- Result of `ResponseParser.parse`: the Python dict
`{"thought": ..., "name": ..., "arguments": ...}`; the argument dict is an
insertion-ordered association list, as in Python. -/
structure ParsedCall where
  thought : String
  name : String
  arguments : List (String × String)
deriving Repr, DecidableEq

/-- Python dict assignment `m[k] = v`: overwrite in place if the key exists,
otherwise append. -/
def dictInsert (m : List (String × String)) (k v : String) : List (String × String) :=
  if m.any fun p => p.1 == k then m.map fun p => if p.1 == k then (k, v) else p
  else m ++ [(k, v)]

/-- Argument loop of `ResponseParser.parse` (the `for section in sections[1:]`
loop, lines 75-86 of `response_parser.py`). -/
def parseArgsL : List (List Char) → List (String × String) → Except String (List (String × String))
  | [], acc => .ok acc
  | sec :: rest, acc =>
    if pyStripL sec = [] then parseArgsL rest acc
    else
      match splitOnceL VALUE_SEP.data sec with
      | none => .error "Argument missing VALUE separator."
      | some (argNamePart, valuePart) =>
        let argName := pyStripL argNamePart
        if argName = [] then .error "Argument name is empty."
        else parseArgsL rest (dictInsert acc argName.asString (pyStripL valuePart).asString)

/-- Embedding of `ResponseParser.parse` (`response_parser.py`, lines 40-89).
`ValueError` is modelled by `Except.error` carrying the message. -/
def parse (text : String) : Except String ParsedCall :=
  let t := text.data
  match rfindL t END_CALL.data with
  | none => .error "Missing END_FUNCTION_CALL marker."
  | some endIdx =>
    let pre := t.take endIdx
    match rfindL pre BEGIN_CALL.data with
    | none => .error "Missing BEGIN_FUNCTION_CALL marker."
    | some beginIdx =>
      let thought := pyStripL (t.take beginIdx)
      let callBlock := pyStripL (pre.drop (beginIdx + BEGIN_CALL.data.length))
      if callBlock = [] then .error "Empty function call block."
      else
        let sections := splitOnL ARG_SEP.data callBlock
        let functionName := pyStripL (sections.headD [])
        if functionName = [] then .error "Function name is missing."
        else
          match parseArgsL sections.tail [] with
          | .error e => .error e
          | .ok args => .ok ⟨thought.asString, functionName.asString, args⟩

instance {ε α : Type} [DecidableEq ε] [DecidableEq α] : DecidableEq (Except ε α) := by
  intro a b
  cases a <;> cases b
  case error.error e e' => exact decidable_of_iff (e = e') (by simp)
  case ok.ok v v' => exact decidable_of_iff (v = v') (by simp)
  all_goals exact isFalse (by simp)

end ReactSwe.ResponseParser

namespace ReactSwe.ReactAgent

open ReactSwe.ResponseParser

/-- A message of the agent's history list (`agent.py`, `add_message`).
Timestamps are modelled by a logical clock ticked at each append. -/
structure Message where
  role : String
  content : String
  timestamp : Nat
  unique_id : Nat
deriving Repr, DecidableEq

/-- A raised Python exception: its type name and its message. -/
structure PyExc where
  typeName : String
  msg : String
deriving Repr, DecidableEq

/-- A registered tool: its name, `inspect.signature` string, docstring, the
outcome of Python's identity test `tool is self.finish` for the stored
callable, and its behaviour on keyword arguments.  In CPython every attribute
access `self.finish` creates a fresh bound-method object, so the bound method
stored in `function_map` at `__init__` time is never identical to the
`self.finish` evaluated inside `run`: the test is `False` for every stored
tool, including `finish` itself. -/
structure Tool where
  name : String
  sigStr : String
  doc : String
  isFinish : Bool
  call : List (String × String) → Except PyExc String

/-- The mutable state of a `ReactAgent` object. -/
structure AgentState where
  id_to_message : List Message
  next_message_id : Nat
  clock : Nat
  function_map : List Tool
  system_message_id : Nat
  user_message_id : Nat

/-- Embedding of `ReactAgent.add_message` (`agent.py`, lines 79-95): append a
message carrying the next unique id and return the new state together with the
returned index `len(self.id_to_message) - 1`. -/
def add_message (st : AgentState) (role content : String) : AgentState × Nat :=
  let m : Message := ⟨role, content, st.clock, st.next_message_id⟩
  ({ st with
      id_to_message := st.id_to_message ++ [m]
      next_message_id := st.next_message_id + 1
      clock := st.clock + 1 },
   st.id_to_message.length)

/-- Overwrite the content of the message at list position `i`. -/
def setContentAt : List Message → Nat → String → List Message
  | [], _, _ => []
  | m :: rest, 0, c => { m with content := c } :: rest
  | m :: rest, i + 1, c => m :: setContentAt rest i c

/-- Embedding of `ReactAgent.set_message_content` (`agent.py`, lines 97-105):
update a message's content by id, failing with `IndexError` when the id is
outside `[0, count)`. -/
def set_message_content (st : AgentState) (message_id : Int) (content : String) :
    Except String AgentState :=
  if 0 ≤ message_id ∧ message_id < (st.id_to_message.length : Int) then
    .ok { st with id_to_message := setContentAt st.id_to_message message_id.toNat content }
  else
    .error ("Message id " ++ toString message_id ++ " is out of range.")

/-- Docstring of `ReactAgent.finish` as surfaced by `inspect.getdoc`. -/
def finishDoc : String :=
  "The agent must call this function with the final result when it has solved the given task. The function calls \"git add -A and git diff --cached\" to generate a patch and returns the patch as submission.\n\nArgs: \n    result (str); the result generated by the agent\n\nReturns:\n    The result passed as an argument.  The result is then returned by the agent's run method."

/-- Behaviour of calling `self.finish(**arguments)`: Python keyword binding
against the signature `(result: str)` either returns the `result` value or
raises `TypeError`. -/
def finish_call (args : List (String × String)) : Except PyExc String :=
  match args.find? (fun p => p.1 != "result") with
  | some p =>
    .error ⟨"TypeError", "ReactAgent.finish() got an unexpected keyword argument '" ++ p.1 ++ "'"⟩
  | none =>
    match args.find? (fun p => p.1 == "result") with
    | some p => .ok p.2
    | none => .error ⟨"TypeError", "ReactAgent.finish() missing 1 required positional argument: 'result'"⟩

/-- The terminating tool registered by the constructor.  `isFinish` is
`false`: `function_map["finish"]` holds the bound method created while
evaluating `[self.finish]` in `__init__`, and `tool is self.finish` at
`agent.py` line 261 compares it against a bound method freshly created by
that attribute access, which in CPython is a different object — so the
identity test never succeeds and the finish branch (lines 261-274) is
unreachable. -/
def finish : Tool := ⟨"finish", "(result: str)", finishDoc, false, finish_call⟩

/-- Python dict write `function_map[name] = tool`: overwrite an existing entry
in place, otherwise append. -/
def registerTool (m : List Tool) (t : Tool) : List Tool :=
  if m.any fun u => u.name == t.name then m.map fun u => if u.name == t.name then t else u
  else m ++ [t]

/-- Embedding of `ReactAgent.add_functions` (`agent.py`, lines 129-142). -/
def add_functions (st : AgentState) (tools : List Tool) : AgentState :=
  { st with function_map := tools.foldl registerTool st.function_map }

/-- Python dict lookup `self.function_map.get(function_name)`. -/
def resolveTool (m : List Tool) (name : String) : Option Tool :=
  m.find? fun t => t.name == name

/-- The constructor's system prompt (`agent.py`, lines 49-72). -/
def system_prompt : String :=
  "You are a careful ReAct agent. Think step-by-step, stay concise, and ALWAYS end with EXACTLY ONE function call.\nRESPONSE FORMAT (must always appear at end):\nyour_thoughts_here\n...\n----BEGIN_FUNCTION_CALL----\nfunction_name\n----ARG----\narg1_name\n----VALUE----\narg1_value\n----ARG----\narg2_name\n----VALUE----\narg2_value\n...\n----END_FUNCTION_CALL----\nRules: exactly one function call; exactly one END marker (do not repeat it); every argument must have both ARG and VALUE blocks; arguments MUST NOT contain BEGIN/END/ARG/VALUE markers; NEVER emit an empty function-call block, if you truly have nothing to do, call finish with an explanation.\n- Valid tools: finish(result: str) and all registered tools listed below.\n- Shell commands must be clean: DO NOT include BEGIN/END_FUNCTION_CALL or ARG/VALUE markers; keep them minimal.\n- After an error, fix inputs and retry rather than repeating the same failure.\n- Finish only once, and only after ensuring a meaningful result (prefer a small relevant test when code changed).\n- Be brief in reasoning; do not dump tool output (context is truncated)."

/-- State built by the `ReactAgent` constructor: a system message (id 0), an
empty user message (id 1), and the registered `finish` tool. -/
def initAgent : AgentState :=
  let st0 : AgentState := ⟨[], 0, 0, [], 0, 0⟩
  let r1 := add_message st0 "system" system_prompt
  let r2 := add_message r1.1 "user" ""
  let st2 := { r2.1 with system_message_id := r1.2, user_message_id := r2.2 }
  add_functions st2 [finish]

/-- The four grammar delimiters, in the tuple order used by
`_sanitize_arguments` and the pollution re-scan. -/
def markers : List String := [BEGIN_CALL, END_CALL, ARG_SEP, VALUE_SEP]

/-- Sanitization of one string value (`agent.py`, lines 286-291): on the first
marker of `markers` contained in `v`, truncate at that marker's first
occurrence and strip trailing whitespace. -/
def sanitizeValue (v : String) : String :=
  match markers.find? (fun m => containsStr v m) with
  | none => v
  | some m =>
    match splitOnceL m.data v.data with
    | none => v
    | some (pre, _) => (rdropWS pre).asString

/-- Embedding of `ReactAgent._sanitize_arguments` (`agent.py`, lines 278-293). -/
def sanitize_arguments (args : List (String × String)) : List (String × String) :=
  args.map fun p => (p.1, sanitizeValue p.2)

/-- The pollution re-scan of `run` (`agent.py`, lines 224-230): does any
argument value still contain one of the four delimiters? -/
def isPolluted (args : List (String × String)) : Bool :=
  args.any fun p => markers.any fun m => containsStr p.2 m

/-- Errors that escape `ReactAgent.run` to the caller. -/
inductive RunError where
  | valueError : String → RunError
  | indexError : String → RunError
  | limitsExceeded : String → RunError
deriving Repr, DecidableEq

/-- Corrective system message appended on a `ParseError` (`agent.py`, lines 200-208). -/
def parseErrorMsg (e : String) : String :=
  "ParserError: " ++ e ++ ". You must ALWAYS end with a valid function call including function name and arguments, following the specified template. Respond again using this exact format:\n" ++ response_format

/-- Corrective system message for an unregistered tool (`agent.py`, lines 214-221). -/
def unknownToolMsg (name : String) (m : List Tool) : String :=
  "Tool '" ++ name ++ "' is not registered. Valid tools: " ++
    String.intercalate ", " (m.map Tool.name) ++ ". Retry with a valid tool and arguments."

/-- Corrective system message for polluted arguments (`agent.py`, lines 231-236). -/
def pollutedMsg : String :=
  "Argument values contained function-call markers (BEGIN/END/ARG/VALUE). Regenerate a clean function call with unpolluted arguments."

/-- Corrective system message after a tool raised (`agent.py`, lines 242-249). -/
def toolFailedMsg (name sig : String) (e : PyExc) : String :=
  "Tool '" ++ name ++ sig ++ "' failed: " ++ e.typeName ++ ": " ++ e.msg ++
    ". Retry with corrected arguments that match the signature."

/-- Corrective system message when finish returns an empty result (`agent.py`, lines 264-267). -/
def emptyFinishMsg : String :=
  "finish returned an empty result. Ensure you generated a patch (git add -A && git diff --cached) or explain why no changes are needed, then call finish again."

/-- Warning message on a second-or-later successful finish (`agent.py`, lines 270-273). -/
def dupFinishMsg : String :=
  "Duplicate finish detected earlier. Only call finish once with the final patch/result."

/-- Simplified Python `repr` of a string (quote-escaping not modelled; the
repr only ever lands in inert message content). -/
def pyStrRepr (s : String) : String := "'" ++ s ++ "'"

/-- Simplified Python `repr` of the argument dict. -/
def pyDictRepr (args : List (String × String)) : String :=
  "\x7b" ++ String.intercalate ", " (args.map fun p => pyStrRepr p.1 ++ ": " ++ pyStrRepr p.2) ++ "\x7d"

/-- Content of the `tool`-role record message (`agent.py`, lines 255-258). -/
def toolMessageContent (name : String) (args : List (String × String)) (result : String) : String :=
  name ++ "(args=" ++ pyDictRepr args ++ ")\n----RESULT----\n" ++ result

/-- The text used as the tool result when an invocation raised:
`f"{type(e).__name__}: {e}"`. -/
def pyExcText (e : PyExc) : String := e.typeName ++ ": " ++ e.msg

/-- The tool result text of an invocation outcome (`agent.py`, lines 238-252):
the raised exception's text, or the returned string. -/
def toolResultText (invoked : Except PyExc String) : String :=
  match invoked with | .error e => pyExcText e | .ok r => r

/-- State after recording a tool invocation (`agent.py`, lines 238-259): a
corrective system message when the tool raised, then the `tool`-role record. -/
def recordToolState (st1 : AgentState) (function_name sig : String)
    (arguments : List (String × String)) (invoked : Except PyExc String) : AgentState :=
  let st2 := match invoked with
    | .error e => (add_message st1 "system" (toolFailedMsg function_name sig e)).1
    | .ok _ => st1
  (add_message st2 "tool" (toolMessageContent function_name arguments (toolResultText invoked))).1

/-- One-per-iteration body and recursion of the main ReAct loop (`agent.py`,
lines 182-276).  `llm` is the model collaborator, indexed by the iteration
number (`run` performs exactly one `generate` call per iteration); `ms` is the
clamped step budget; `remaining` counts iterations left; `step` is the current
iteration index; the contexts built for the model are consumed only by the
collaborator and are therefore not threaded here. -/
def runSteps (llm : Nat → String) (ms : Nat) :
    Nat → AgentState → Nat → Nat → AgentState × Except RunError String
  | 0, st, _, _ =>
    (st, .error (.limitsExceeded ("Reached " ++ toString ms ++ " steps without calling finish.")))
  | remaining + 1, st, finish_attempts, step =>
    let response := llm step
    let st1 := (add_message st "assistant" response).1
    match ResponseParser.parse response with
    | .error e =>
      runSteps llm ms remaining (add_message st1 "system" (parseErrorMsg e)).1 finish_attempts (step + 1)
    | .ok parsed =>
      let function_name := parsed.name
      let arguments := sanitize_arguments parsed.arguments
      match resolveTool st1.function_map function_name with
      | none =>
        runSteps llm ms remaining
          (add_message st1 "system" (unknownToolMsg function_name st1.function_map)).1
          finish_attempts (step + 1)
      | some tool =>
        if isPolluted arguments then
          runSteps llm ms remaining (add_message st1 "system" pollutedMsg).1 finish_attempts (step + 1)
        else
          let invoked := tool.call arguments
          let tool_result := toolResultText invoked
          let st3 := recordToolState st1 function_name tool.sigStr arguments invoked
          if tool.isFinish then
            if pyStrip tool_result = "" then
              runSteps llm ms remaining (add_message st3 "system" emptyFinishMsg).1 (finish_attempts + 1) (step + 1)
            else
              let st4 := if finish_attempts + 1 > 1 then (add_message st3 "system" dupFinishMsg).1 else st3
              (st4, .ok tool_result)
          else
            runSteps llm ms remaining st3 finish_attempts (step + 1)

/-- Embedding of `ReactAgent.run` (`agent.py`, lines 156-276): validate and
clamp `max_steps`, write the trimmed task into the user message, then iterate.
The final state pairs with the outcome (a raised error leaves the mutated
state on the agent object). -/
def run (llm : Nat → String) (st : AgentState) (task : String) (max_steps : Int) :
    AgentState × Except RunError String :=
  if max_steps ≤ 0 then (st, .error (.valueError "max_steps must be positive"))
  else
    let ms : Nat := (min max_steps 100).toNat
    match set_message_content st (st.user_message_id : Int) (pyStrip task) with
    | .error e => (st, .error (.indexError e))
    | .ok st' => runSteps llm ms ms st' 0 0

/-- Embedding of `ReactAgent.message_id_to_context` (`agent.py`, lines
295-326); `none` models the `IndexError` of an invalid index. -/
def message_id_to_context (st : AgentState) (message_id : Nat) : Option String :=
  match st.id_to_message.get? message_id with
  | none => none
  | some message =>
    let header := "----------------------------\n|MESSAGE(role=\"" ++ message.role ++ "\", id=" ++
      toString message.unique_id ++ ")|\n"
    let content := message.content
    let content :=
      if message.role = "tool" then
        if message_id ≠ st.id_to_message.length - 1 then
          if content.data.length > 2048 then
            let head := content.data.take 1024
            let tail := content.data.drop (content.data.length - 512)
            head.asString ++ "\n... [TRUNCATED " ++
              toString (content.data.length - (head.length + tail.length)) ++ " CHARS] ...\n" ++
              tail.asString
          else content
        else content
      else content
    if message.role = "system" then
      let tool_descriptions := String.intercalate "\n" (st.function_map.map fun t =>
        "Function: " ++ t.name ++ t.sigStr ++ "\n" ++ t.doc ++ "\n")
      some (header ++ content ++ "\n--- AVAILABLE TOOLS ---\n" ++ tool_descriptions ++
        "\n\n--- RESPONSE FORMAT ---\n" ++ response_format ++ "\n")
    else
      some (header ++ content ++ "\n")

/-- Fresh message store with no messages and id counter at 0. -/
def emptyAgent : AgentState := ⟨[], 0, 0, [], 0, 0⟩

/-- Append a batch of `(role, content)` pairs through `add_message`. -/
def appendAll (st : AgentState) (msgs : List (String × String)) : AgentState :=
  msgs.foldl (fun s rc => (add_message s rc.1 rc.2).1) st

/-- The ids of the store's messages, in list order. -/
def idsOf (st : AgentState) : List Nat := st.id_to_message.map Message.unique_id

end ReactSwe.ReactAgent

namespace ReactSwe.ResponseParser

/-- Canonical rendering of an argument list into the call grammar's
`----ARG----` / `----VALUE----` blocks. -/
def argsRender : List (String × String) → String
  | [] => ""
  | p :: rest =>
    ARG_SEP ++ "\n" ++ p.1 ++ "\n" ++ VALUE_SEP ++ "\n" ++ p.2 ++ "\n" ++ argsRender rest

/-- Canonical rendering of `(thought, name, arguments)` into the call grammar
template of `response_format`. -/
def renderCall (thought name : String) (args : List (String × String)) : String :=
  thought ++ "\n" ++ BEGIN_CALL ++ "\n" ++ name ++ "\n" ++ argsRender args ++ END_CALL

/-- One rendered argument chunk, at character level: what `argsRender`
contributes for a single pair. -/
def chunkL (p : String × String) : List Char :=
  ARG_SEP.data ++ '\n' :: p.1.data ++ '\n' :: VALUE_SEP.data ++ '\n' :: p.2.data ++ ['\n']

/-- A non-final argument section as produced by splitting the trimmed call
block on `----ARG----`. -/
def midSecL (p : String × String) : List Char :=
  '\n' :: p.1.data ++ '\n' :: VALUE_SEP.data ++ '\n' :: p.2.data ++ ['\n']

/-- The final argument section: the call-block-level trim shortens its value. -/
def lastSecL (p : String × String) : List Char :=
  if rdropWS p.2.data = [] then '\n' :: p.1.data ++ '\n' :: VALUE_SEP.data
  else '\n' :: p.1.data ++ '\n' :: VALUE_SEP.data ++ '\n' :: rdropWS p.2.data

/-- The rendered argument area after the call-block-level right trim. -/
def strippedAR : List (String × String) → List Char
  | [] => []
  | [p] => ARG_SEP.data ++ lastSecL p
  | p :: rest => ARG_SEP.data ++ midSecL p ++ strippedAR rest

/-- The argument sections of the trimmed call block of a rendered call. -/
def secsOfL : List (String × String) → List (List Char)
  | [] => []
  | [p] => [lastSecL p]
  | p :: rest => midSecL p :: secsOfL rest

/-- The string contains none of the four grammar delimiters. -/
def markerFree (s : String) : Bool :=
  !containsStr s BEGIN_CALL && !containsStr s END_CALL &&
  !containsStr s ARG_SEP && !containsStr s VALUE_SEP

/-- Nonempty and already stripped: first and last characters are non-whitespace. -/
def trimmedNE (l : List Char) : Bool :=
  (match l.head? with | some c => !isPySpace c | none => false) &&
  (match l.getLast? with | some c => !isPySpace c | none => false)

/-- Well-formed function name for the round-trip law: trimmed, nonempty,
delimiter-free. -/
def wfName (s : String) : Bool := trimmedNE s.data && markerFree s

/-- Well-formed argument pair: trimmed nonempty delimiter-free name and a
delimiter-free (but otherwise arbitrary, possibly multiline) value. -/
def wfArg (p : String × String) : Bool :=
  trimmedNE p.1.data && markerFree p.1 && markerFree p.2

/-- Argument list with values trimmed of leading/trailing whitespace, as
`parse` stores them. -/
def trimValues (args : List (String × String)) : List (String × String) :=
  args.map fun p => (p.1, pyStrip p.2)

/-- Boolean success test for `Except`. -/
def exceptIsOk {ε α : Type} : Except ε α → Bool
  | .ok _ => true
  | .error _ => false

/-- Failure condition (1) of the spec: the end marker is absent from the text. -/
def failEndAbsent (text : String) : Bool := !containsStr text END_CALL

/-- Failure condition (2): no begin marker occurs before the last end marker. -/
def failBeginAbsent (text : String) : Bool :=
  match rfindL text.data END_CALL.data with
  | none => false
  | some e => !containsL (text.data.take e) BEGIN_CALL.data

/-- The trimmed call block between the anchored markers, when both anchor. -/
def callBlockOf (text : String) : Option (List Char) :=
  match rfindL text.data END_CALL.data with
  | none => none
  | some e =>
    match rfindL (text.data.take e) BEGIN_CALL.data with
    | none => none
    | some b => some (pyStripL ((text.data.take e).drop (b + BEGIN_CALL.data.length)))

/-- Failure condition (3): the call block is empty or whitespace-only. -/
def failEmptyBlock (text : String) : Bool :=
  match callBlockOf text with
  | none => false
  | some cb => cb.isEmpty

/-- The argument segments: the call block split on `----ARG----`, head removed. -/
def argSections (text : String) : List (List Char) :=
  match callBlockOf text with
  | none => []
  | some cb => (splitOnL ARG_SEP.data cb).tail

/-- Failure condition (4): a non-blank argument segment lacks the
`----VALUE----` separator. -/
def failMissingValueSep (text : String) : Bool :=
  (argSections text).any fun sec => !(pyStripL sec).isEmpty && !containsL sec VALUE_SEP.data

/-- Failure condition (5): an argument name is empty after trimming. -/
def failEmptyArgName (text : String) : Bool :=
  (argSections text).any fun sec =>
    !(pyStripL sec).isEmpty &&
    (match splitOnceL VALUE_SEP.data sec with
     | none => false
     | some (np, _) => (pyStripL np).isEmpty)

/-- Failure condition (6), absent from the spec's list: the call block is
non-blank but the function name (segment before the first `----ARG----`) is
empty after trimming. -/
def failEmptyFunctionName (text : String) : Bool :=
  match callBlockOf text with
  | none => false
  | some cb => !cb.isEmpty && (pyStripL ((splitOnL ARG_SEP.data cb).headD [])).isEmpty

end ReactSwe.ResponseParser

namespace ReactSwe.ReactAgent

open ReactSwe.ResponseParser

/-- State after one loop iteration has recorded a resolved, unpolluted tool
invocation: the assistant message, the optional failure corrective, and the
tool record. -/
def toolStepState (st : AgentState) (response : String) (pc : ParsedCall) (t : Tool) :
    AgentState :=
  recordToolState (add_message st "assistant" response).1 pc.name t.sigStr
    (sanitize_arguments pc.arguments) (t.call (sanitize_arguments pc.arguments))

/-- Final state of an iteration that returns from `run` through the finish
branch (including the duplicate-finish warning when applicable). -/
def finishReturnState (st : AgentState) (response : String) (pc : ParsedCall) (t : Tool)
    (finish_attempts : Nat) : AgentState :=
  if finish_attempts + 1 > 1 then
    (add_message (toolStepState st response pc t) "system" dupFinishMsg).1
  else toolStepState st response pc t

/-- State after an iteration in which finish produced an empty result: the
corrective message is appended and the loop goes on. -/
def emptyFinishState (st : AgentState) (response : String) (pc : ParsedCall) (t : Tool) :
    AgentState :=
  (add_message (toolStepState st response pc t) "system" emptyFinishMsg).1

/-- State after an iteration rejected as polluted: only the assistant message
and the corrective system message are appended. -/
def pollutedState (st : AgentState) (response : String) : AgentState :=
  (add_message (add_message st "assistant" response).1 "system" pollutedMsg).1

end ReactSwe.ReactAgent

namespace ReactSwe

/-! Occurrence toolkit: characterizations of `findOcc`, `rfindL`, `splitOnL`
in terms of `List.IsPrefix` / `List.IsInfix`, used to reason about the
`rfind`-anchored parser. -/

theorem infix_iff_drop {t l : List Char} : t <:+: l ↔ ∃ i, t <+: l.drop i := by
  constructor
  · rintro ⟨s, u, rfl⟩
    exact ⟨s.length, u, by rw [List.append_assoc, List.drop_left]⟩
  · rintro ⟨i, r, hr⟩
    exact ⟨l.take i, r, by rw [List.append_assoc, hr, List.take_append_drop]⟩

theorem char_mem_of_pfx_drop {pat l : List Char} {j m : Nat} {c : Char}
    (h : pat <+: l.drop j) (hjm : j ≤ m) (hm : m - j < pat.length)
    (hc : l[m]? = some c) : c ∈ pat := by
  obtain ⟨r, hr⟩ := h
  have h1 : l[m]? = (l.drop j)[m - j]? := by
    rw [List.getElem?_drop]
    congr 1
    omega
  rw [h1, ← hr, List.getElem?_append_left hm] at hc
  obtain ⟨hlt, rfl⟩ := List.getElem?_eq_some.mp hc
  exact List.getElem_mem hlt

theorem prefix_fit {p a b : List Char} (h : p <+: a ++ b) (hl : p.length ≤ a.length) :
    p <+: a := by
  have h1 : p = (a ++ b).take p.length := List.prefix_iff_eq_take.mp h
  have h2 : p = a.take p.length := by
    conv_lhs => rw [h1]
    rw [List.take_append_of_le_length hl]
  have h3 : a.take p.length <+: a := List.take_prefix _ a
  rw [← h2] at h3
  exact h3

theorem findOccAux_shift (pat : List Char) :
    ∀ (l : List Char) (j : Nat), findOccAux pat l j = (findOccAux pat l 0).map (· + j) := by
  intro l
  induction l with
  | nil =>
    intro j
    by_cases h : pat.isPrefixOf [] <;> simp [findOccAux, h]
  | cons c t ih =>
    intro j
    by_cases h : pat.isPrefixOf (c :: t)
    · simp [findOccAux, h]
    · simp only [findOccAux]
      rw [if_neg h, if_neg h, ih (j + 1), ih 1, Option.map_map]
      cases findOccAux pat t 0 <;> simp
      omega

theorem findOcc_cons (pat : List Char) (c : Char) (t : List Char) :
    findOcc (c :: t) pat =
      if pat.isPrefixOf (c :: t) then some 0 else (findOcc t pat).map (· + 1) := by
  by_cases h : pat.isPrefixOf (c :: t) <;>
    simp [findOcc, findOccAux, h, findOccAux_shift pat t 1]

theorem findOcc_some {pat : List Char} :
    ∀ {l : List Char} {k : Nat}, findOcc l pat = some k →
      pat <+: l.drop k ∧ ∀ j < k, ¬ pat <+: l.drop j := by
  intro l
  induction l with
  | nil =>
    intro k h
    simp only [findOcc, findOccAux] at h
    by_cases hp : pat.isPrefixOf []
    · simp [hp] at h
      subst h
      exact ⟨List.isPrefixOf_iff_prefix.mp hp, by omega⟩
    · simp [hp] at h
  | cons c t ih =>
    intro k h
    rw [findOcc_cons] at h
    by_cases hp : pat.isPrefixOf (c :: t)
    · simp [hp] at h
      subst h
      exact ⟨List.isPrefixOf_iff_prefix.mp hp, by omega⟩
    · simp [hp] at h
      obtain ⟨k', hk', rfl⟩ := h
      obtain ⟨h1, h2⟩ := ih hk'
      refine ⟨by simpa using h1, ?_⟩
      intro j hj
      cases j with
      | zero =>
        simpa using fun hpre => hp (List.isPrefixOf_iff_prefix.mpr hpre)
      | succ j' =>
        simpa using h2 j' (by omega)

theorem findOcc_none {pat : List Char} :
    ∀ {l : List Char}, findOcc l pat = none → ∀ j, ¬ pat <+: l.drop j := by
  intro l
  induction l with
  | nil =>
    intro h j
    simp only [findOcc, findOccAux] at h
    by_cases hp : pat.isPrefixOf [] <;> simp [hp] at h ⊢
    simpa [List.drop_nil] using fun hpre => hp (List.isPrefixOf_iff_prefix.mpr hpre)
  | cons c t ih =>
    intro h j
    rw [findOcc_cons] at h
    by_cases hp : pat.isPrefixOf (c :: t)
    · simp [hp] at h
    · simp [hp] at h
      cases j with
      | zero =>
        simpa using fun hpre => hp (List.isPrefixOf_iff_prefix.mpr hpre)
      | succ j' =>
        simpa using ih h j'

theorem findOcc_isSome_of_pfx {pat l : List Char} {j : Nat} (h : pat <+: l.drop j) :
    (findOcc l pat).isSome := by
  cases hf : findOcc l pat with
  | none => exact absurd h (findOcc_none hf j)
  | some k => rfl

theorem rfindAux_some {pat l : List Char} :
    ∀ {i k : Nat}, rfindAux pat l i = some k →
      pat <+: l.drop k ∧ k ≤ i ∧ ∀ j, k < j → j ≤ i → ¬ pat <+: l.drop j := by
  intro i
  induction i with
  | zero =>
    intro k h
    simp only [rfindAux] at h
    by_cases hp : pat.isPrefixOf l
    · simp [hp] at h
      subst h
      exact ⟨by simpa using List.isPrefixOf_iff_prefix.mp hp, by omega, by omega⟩
    · simp [hp] at h
  | succ i ih =>
    intro k h
    simp only [rfindAux] at h
    by_cases hp : pat.isPrefixOf (l.drop (i + 1))
    · rw [if_pos hp] at h
      obtain rfl : i + 1 = k := by simpa using h
      exact ⟨List.isPrefixOf_iff_prefix.mp hp, by omega, by omega⟩
    · rw [if_neg hp] at h
      obtain ⟨h1, h2, h3⟩ := ih h
      refine ⟨h1, by omega, ?_⟩
      intro j hj1 hj2
      rcases Nat.lt_or_ge j (i + 1) with hj | hj
      · exact h3 j hj1 (by omega)
      · obtain rfl : j = i + 1 := by omega
        exact fun hpre => hp (List.isPrefixOf_iff_prefix.mpr hpre)

theorem rfindAux_none {pat l : List Char} :
    ∀ {i : Nat}, rfindAux pat l i = none → ∀ j ≤ i, ¬ pat <+: l.drop j := by
  intro i
  induction i with
  | zero =>
    intro h j hj
    simp only [rfindAux] at h
    by_cases hp : pat.isPrefixOf l
    · simp [hp] at h
    · obtain rfl : j = 0 := by omega
      simpa using fun hpre => hp (List.isPrefixOf_iff_prefix.mpr hpre)
  | succ i ih =>
    intro h j hj
    simp only [rfindAux] at h
    by_cases hp : pat.isPrefixOf (l.drop (i + 1))
    · simp [hp] at h
    · rw [if_neg hp] at h
      rcases Nat.lt_or_ge j (i + 1) with hj' | hj'
      · exact ih h j (by omega)
      · obtain rfl : j = i + 1 := by omega
        exact fun hpre => hp (List.isPrefixOf_iff_prefix.mpr hpre)

theorem rfindL_some {l pat : List Char} {k : Nat} (hpat : pat ≠ [])
    (h : rfindL l pat = some k) :
    pat <+: l.drop k ∧ ∀ j, k < j → ¬ pat <+: l.drop j := by
  unfold rfindL at h
  by_cases hle : pat.length ≤ l.length
  · rw [if_pos hle] at h
    obtain ⟨h1, h2, h3⟩ := rfindAux_some h
    refine ⟨h1, ?_⟩
    intro j hj hpre
    rcases Nat.lt_or_ge (l.length - pat.length) j with hbig | hsmall
    · have hlen : pat.length ≤ (l.drop j).length := hpre.length_le
      have : pat.length ≥ 1 := by
        cases pat with
        | nil => exact absurd rfl hpat
        | cons a b => simp
      simp only [List.length_drop] at hlen
      omega
    · exact h3 j hj hsmall hpre
  · rw [if_neg hle] at h
    exact absurd h (by simp)

theorem rfindL_none {l pat : List Char} (h : rfindL l pat = none) :
    ∀ j, ¬ pat <+: l.drop j := by
  intro j hpre
  unfold rfindL at h
  by_cases hle : pat.length ≤ l.length
  · rw [if_pos hle] at h
    cases pat with
    | nil =>
      simp only [List.length_nil, Nat.sub_zero] at h
      cases hN : l.length with
      | zero => rw [hN] at h; simp [rfindAux, List.isPrefixOf] at h
      | succ m => rw [hN] at h; simp [rfindAux, List.isPrefixOf] at h
    | cons p ps =>
      rcases Nat.lt_or_ge (l.length - (p :: ps).length) j with hj | hj
      · have hlen : (p :: ps).length ≤ (l.drop j).length := hpre.length_le
        simp only [List.length_drop] at hlen
        simp only [List.length_cons] at hj hlen
        omega
      · exact rfindAux_none h j hj hpre
  · rw [if_neg hle] at h
    have hlen : pat.length ≤ (l.drop j).length := hpre.length_le
    simp only [List.length_drop] at hlen
    omega

theorem rfind_append_self (a pat : List Char) (hpat : pat ≠ []) :
    rfindL (a ++ pat) pat = some a.length := by
  have hocc : pat <+: (a ++ pat).drop a.length := by
    rw [List.drop_left]
  cases h : rfindL (a ++ pat) pat with
  | none => exact absurd hocc (rfindL_none h a.length)
  | some k =>
    obtain ⟨h1, h2⟩ := rfindL_some hpat h
    congr
    rcases Nat.lt_trichotomy k a.length with hk | hk | hk
    · exact absurd hocc (h2 a.length hk)
    · exact hk
    · exfalso
      have hlen : pat.length ≤ ((a ++ pat).drop k).length := h1.length_le
      have hplen : pat.length ≥ 1 := by
        cases pat with
        | nil => exact absurd rfl hpat
        | cons x xs => simp
      simp only [List.length_drop, List.length_append] at hlen
      omega

theorem infix_of_pfx_drop {pat l : List Char} {j : Nat} (h : pat <+: l.drop j) :
    pat <:+: l :=
  infix_iff_drop.mpr ⟨j, h⟩

theorem rfind_anchor (a pat b : List Char) (hpat : pat ≠ []) (hnl : '\n' ∉ pat)
    (hb : ¬ pat <:+: ('\n' :: b)) :
    rfindL (a ++ pat ++ '\n' :: b) pat = some a.length := by
  have hocc : pat <+: (a ++ pat ++ '\n' :: b).drop a.length := by
    rw [List.append_assoc, List.drop_left]
    exact ⟨'\n' :: b, rfl⟩
  have hnone : ∀ j, a.length < j → ¬ pat <+: (a ++ pat ++ '\n' :: b).drop j := by
    intro j hj hpre
    rcases Nat.lt_or_ge j (a.length + pat.length) with hzone | hzone
    · -- straddling occurrence: it covers the '\n' right after `pat`
      have hchar : (a ++ pat ++ '\n' :: b)[a.length + pat.length]? = some '\n' := by
        rw [List.getElem?_append_right (by simp)]
        simp
      exact hnl (char_mem_of_pfx_drop hpre (by omega) (by omega) hchar)
    · -- occurrence inside `'\n' :: b`
      have hdrop : (a ++ pat ++ '\n' :: b).drop j =
          ('\n' :: b).drop (j - (a.length + pat.length)) := by
        rw [List.drop_append_eq_append_drop,
          List.drop_eq_nil_of_le (by simp; omega)]
        simp
      rw [hdrop] at hpre
      exact hb (infix_of_pfx_drop hpre)
  cases h : rfindL (a ++ pat ++ '\n' :: b) pat with
  | none => exact absurd hocc (rfindL_none h a.length)
  | some k =>
    obtain ⟨h1, h2⟩ := rfindL_some hpat h
    congr
    rcases Nat.lt_trichotomy k a.length with hk | hk | hk
    · exact absurd hocc (h2 a.length hk)
    · exact hk
    · exact absurd h1 (hnone k hk)

theorem findOcc_append_self (pat b : List Char) : findOcc (pat ++ b) pat = some 0 := by
  have hpre : pat.isPrefixOf (pat ++ b) = true :=
    List.isPrefixOf_iff_prefix.mpr ⟨b, rfl⟩
  cases hl : pat ++ b with
  | nil => simp only [findOcc, findOccAux, hl ▸ hpre, if_true]
  | cons c t => simp only [findOcc, findOccAux, hl ▸ hpre, if_true]

theorem findOcc_anchor (a : List Char) (c : Char) (sep b : List Char)
    (hc : c ∉ sep) (ha : ¬ sep <:+: (a ++ [c])) :
    findOcc ((a ++ [c]) ++ sep ++ b) sep = some (a ++ [c]).length := by
  have hocc : sep <+: ((a ++ [c]) ++ sep ++ b).drop (a ++ [c]).length := by
    rw [List.append_assoc, List.drop_left]
    exact ⟨b, rfl⟩
  have hnone : ∀ j, j < (a ++ [c]).length → ¬ sep <+: ((a ++ [c]) ++ sep ++ b).drop j := by
    intro j hj hpre
    have hlen : (a ++ [c]).length = a.length + 1 := by simp
    rw [hlen] at hj
    rcases Nat.lt_or_ge (a.length + 1) (j + sep.length) with hzone | hzone
    · -- straddling occurrence: it covers the final `c` of `a ++ [c]`
      have hchar : ((a ++ [c]) ++ sep ++ b)[a.length]? = some c := by
        have hlt : a.length < (a ++ [c]).length := by simp
        rw [List.append_assoc, List.getElem?_append_left hlt]
        simp
      exact hc (char_mem_of_pfx_drop hpre (by omega) (by omega) hchar)
    · -- occurrence inside `a ++ [c]`
      have hfit : sep <+: (a ++ [c]).drop j := by
        have hsplit : ((a ++ [c]) ++ sep ++ b).drop j = (a ++ [c]).drop j ++ (sep ++ b) := by
          rw [List.append_assoc, List.drop_append_eq_append_drop,
            Nat.sub_eq_zero_of_le (by rw [hlen]; omega), List.drop_zero]
        rw [hsplit] at hpre
        exact prefix_fit hpre (by rw [List.length_drop, hlen]; omega)
      exact ha (infix_of_pfx_drop hfit)
  cases h : findOcc ((a ++ [c]) ++ sep ++ b) sep with
  | none => exact absurd hocc (findOcc_none h _)
  | some k =>
    obtain ⟨h1, h2⟩ := findOcc_some h
    congr
    rcases Nat.lt_trichotomy k (a ++ [c]).length with hk | hk | hk
    · exact absurd h1 (hnone k hk)
    · exact hk
    · exact absurd hocc (h2 _ hk)

theorem infix_split_char {pat x y : List Char} {c : Char} (hc : c ∉ pat)
    (h : pat <:+: (x ++ c :: y)) : pat <:+: x ∨ pat <:+: y := by
  obtain ⟨i, hpre⟩ := infix_iff_drop.mp h
  rcases Nat.lt_or_ge i (x.length + 1) with hi | hi
  · rcases Nat.lt_or_ge x.length (i + pat.length) with hzone | hzone
    · -- the occurrence would cover `c`
      exfalso
      have hchar : (x ++ c :: y)[x.length]? = some c := by
        rw [List.getElem?_append_right (Nat.le_refl _)]
        simp
      exact hc (char_mem_of_pfx_drop hpre (by omega) (by omega) hchar)
    · -- the occurrence fits inside `x`
      left
      have hsplit : (x ++ c :: y).drop i = x.drop i ++ c :: y := by
        rw [List.drop_append_eq_append_drop, Nat.sub_eq_zero_of_le (by omega), List.drop_zero]
      rw [hsplit] at hpre
      exact infix_of_pfx_drop (prefix_fit hpre (by simp; omega))
  · -- the occurrence lies inside `y`
    right
    have h1 : x ++ c :: y = (x ++ [c]) ++ y := by simp
    have hsplit : (x ++ c :: y).drop i = y.drop (i - (x.length + 1)) := by
      rw [h1, List.drop_append_eq_append_drop, List.drop_eq_nil_of_le (by simp; omega)]
      simp
    rw [hsplit] at hpre
    exact infix_of_pfx_drop hpre

theorem findOcc_nil_of_ne {sep : List Char} (hsep : sep ≠ []) :
    findOcc [] sep = none := by
  have : ¬ sep.isPrefixOf ([] : List Char) = true := by
    intro h
    exact hsep (List.prefix_nil.mp (List.isPrefixOf_iff_prefix.mp h))
  simp [findOcc, findOccAux, this]

theorem findOcc_some_bound {l sep : List Char} {i : Nat} (hsep : sep ≠ [])
    (h : findOcc l sep = some i) : i + sep.length ≤ l.length ∧ 1 ≤ sep.length := by
  obtain ⟨h1, -⟩ := findOcc_some h
  have hlen : sep.length ≤ (l.drop i).length := h1.length_le
  simp only [List.length_drop] at hlen
  have hpos : 1 ≤ sep.length := by
    cases sep with
    | nil => exact absurd rfl hsep
    | cons s ss => simp
  constructor
  · rcases Nat.lt_or_ge i l.length with hi | hi
    · omega
    · exfalso
      have : l.drop i = [] := List.drop_eq_nil_of_le hi
      rw [this] at h1
      exact hsep (List.prefix_nil.mp h1)
  · exact hpos

theorem splitOnFuel_congr {sep : List Char} (hsep : sep ≠ []) :
    ∀ (n : Nat) {m : Nat} {l : List Char}, l.length ≤ n → l.length ≤ m →
      splitOnFuel sep n l = splitOnFuel sep m l := by
  intro n
  induction n with
  | zero =>
    intro m l hn hm
    have : l = [] := List.eq_nil_of_length_eq_zero (by omega)
    subst this
    cases m with
    | zero => rfl
    | succ m' => simp [splitOnFuel, findOcc_nil_of_ne hsep]
  | succ n ih =>
    intro m l hn hm
    cases m with
    | zero =>
      have : l = [] := List.eq_nil_of_length_eq_zero (by omega)
      subst this
      simp [splitOnFuel, findOcc_nil_of_ne hsep]
    | succ m' =>
      simp only [splitOnFuel]
      cases hf : findOcc l sep with
      | none => rfl
      | some i =>
        obtain ⟨hb, hpos⟩ := findOcc_some_bound hsep hf
        have hlen : (l.drop (i + sep.length)).length ≤ n := by
          simp only [List.length_drop]
          omega
        have hlen' : (l.drop (i + sep.length)).length ≤ m' := by
          simp only [List.length_drop]
          omega
        show l.take i :: splitOnFuel sep n (l.drop (i + sep.length)) =
          l.take i :: splitOnFuel sep m' (l.drop (i + sep.length))
        rw [ih hlen hlen']

theorem splitOnL_single {sep l : List Char} (h : findOcc l sep = none) :
    splitOnL sep l = [l] := by
  unfold splitOnL
  cases hn : l.length with
  | zero => rfl
  | succ m => simp [splitOnFuel, h]

theorem splitOnL_cons {sep a b : List Char} (hsep : sep ≠ [])
    (h : findOcc (a ++ sep ++ b) sep = some a.length) :
    splitOnL sep (a ++ sep ++ b) = a :: splitOnL sep b := by
  have hpos : 1 ≤ sep.length := by
    cases sep with
    | nil => exact absurd rfl hsep
    | cons s ss => simp
  have hlenL : (a ++ sep ++ b).length = a.length + sep.length + b.length := by
    rw [List.length_append, List.length_append]
  unfold splitOnL
  cases hn : (a ++ sep ++ b).length with
  | zero => omega
  | succ m =>
    simp only [splitOnFuel, h]
    have h1 : (a ++ sep).length = a.length + sep.length := by rw [List.length_append]
    have htake : (a ++ sep ++ b).take a.length = a := by
      rw [List.append_assoc, List.take_left]
    have hdrop : (a ++ sep ++ b).drop (a.length + sep.length) = b := by
      rw [List.drop_append_eq_append_drop, List.drop_eq_nil_of_le (le_of_eq h1),
        h1, Nat.sub_self, List.drop_zero, List.nil_append]
    rw [htake, hdrop]
    congr 1
    exact splitOnFuel_congr hsep m (by omega) (Nat.le_refl _)

theorem splitOnFuel_parts_no_sep {sep : List Char} (hsep : sep ≠ []) :
    ∀ (n : Nat) (l : List Char), l.length ≤ n →
      ∀ part ∈ splitOnFuel sep n l, ¬ sep <:+: part := by
  intro n
  induction n with
  | zero =>
    intro l hn part hpart hinf
    have : l = [] := List.eq_nil_of_length_eq_zero (by omega)
    subst this
    simp only [splitOnFuel, List.mem_singleton] at hpart
    subst hpart
    obtain ⟨i, hpre⟩ := infix_iff_drop.mp hinf
    exact hsep (List.prefix_nil.mp (by simpa using hpre))
  | succ n ih =>
    intro l hn part hpart hinf
    simp only [splitOnFuel] at hpart
    cases hf : findOcc l sep with
    | none =>
      rw [hf] at hpart
      simp only [List.mem_singleton] at hpart
      subst hpart
      obtain ⟨i, hpre⟩ := infix_iff_drop.mp hinf
      exact findOcc_none hf i hpre
    | some i =>
      rw [hf] at hpart
      obtain ⟨hb, hpos⟩ := findOcc_some_bound hsep hf
      simp only [List.mem_cons] at hpart
      rcases hpart with rfl | hpart
      · -- the head part `l.take i` has no occurrence: `i` was leftmost
        obtain ⟨-, hmin⟩ := findOcc_some hf
        obtain ⟨j, hpre⟩ := infix_iff_drop.mp hinf
        have hj : j < i := by
          by_contra hge
          have : (l.take i).drop j = [] := by
            apply List.drop_eq_nil_of_le
            simp
            omega
          rw [this] at hpre
          exact hsep (List.prefix_nil.mp hpre)
        have hpre' : sep <+: l.drop j := by
          have hsub : (l.take i).drop j = (l.drop j).take (i - j) := by
            rw [List.drop_take]
          rw [hsub] at hpre
          exact hpre.trans (List.take_prefix _ _)
        exact hmin j hj hpre'
      · exact ih (l.drop (i + sep.length)) (by simp; omega) part hpart hinf

theorem splitOnL_parts_no_sep {sep l : List Char} (hsep : sep ≠ []) :
    ∀ part ∈ splitOnL sep l, ¬ sep <:+: part :=
  splitOnFuel_parts_no_sep hsep l.length l (Nat.le_refl _)

theorem splitOnFuel_parts_inf {sep : List Char} :
    ∀ (n : Nat) (l : List Char), ∀ part ∈ splitOnFuel sep n l, part <:+: l := by
  intro n
  induction n with
  | zero =>
    intro l part hpart
    simp only [splitOnFuel, List.mem_singleton] at hpart
    subst hpart
    exact List.infix_refl _
  | succ n ih =>
    intro l part hpart
    simp only [splitOnFuel] at hpart
    cases hf : findOcc l sep with
    | none =>
      rw [hf] at hpart
      simp only [List.mem_singleton] at hpart
      subst hpart
      exact List.infix_refl _
    | some i =>
      rw [hf] at hpart
      simp only [List.mem_cons] at hpart
      rcases hpart with rfl | hpart
      · exact (List.take_prefix i l).isInfix
      · exact (ih (l.drop (i + sep.length)) part hpart).trans (List.drop_suffix _ l).isInfix

theorem splitOnL_parts_inf {sep l : List Char} :
    ∀ part ∈ splitOnL sep l, part <:+: l :=
  splitOnFuel_parts_inf l.length l

/-! Whitespace/strip toolkit mirroring Python `strip`/`rstrip`. -/

theorem ldropWS_cons_ws {c : Char} (hc : isPySpace c = true) (l : List Char) :
    ldropWS (c :: l) = ldropWS l := by
  simp [ldropWS, List.dropWhile_cons, hc]

theorem ldropWS_cons_no_ws {c : Char} (hc : ¬ isPySpace c = true) (l : List Char) :
    ldropWS (c :: l) = c :: l := by
  simp [ldropWS, List.dropWhile_cons, hc]

theorem ldropWS_append (x y : List Char) :
    ldropWS (x ++ y) = if (ldropWS x).isEmpty then ldropWS y else ldropWS x ++ y := by
  simp [ldropWS, List.dropWhile_append]

theorem ldropWS_eq_nil_iff {l : List Char} :
    ldropWS l = [] ↔ ∀ c ∈ l, isPySpace c = true := by
  simp [ldropWS, List.dropWhile_eq_nil_iff]

theorem rdropWS_eq_nil_iff {l : List Char} :
    rdropWS l = [] ↔ ∀ c ∈ l, isPySpace c = true := by
  unfold rdropWS
  rw [List.reverse_eq_nil_iff, List.dropWhile_eq_nil_iff]
  constructor
  · intro h c hc
    exact h c (List.mem_reverse.mpr hc)
  · intro h c hc
    exact h c (List.mem_reverse.mp hc)

theorem rdropWS_append_keep {y : List Char} (x : List Char) (hy : rdropWS y ≠ []) :
    rdropWS (x ++ y) = x ++ rdropWS y := by
  unfold rdropWS at hy ⊢
  rw [List.reverse_append, List.dropWhile_append]
  have hne : y.reverse.dropWhile isPySpace ≠ [] := by
    intro h
    exact hy (by rw [h]; rfl)
  have : (y.reverse.dropWhile isPySpace).isEmpty = false := by
    simpa [List.isEmpty_iff] using hne
  rw [this]
  simp

theorem rdropWS_append_all_ws {y : List Char} (x : List Char) (hy : rdropWS y = []) :
    rdropWS (x ++ y) = rdropWS x := by
  unfold rdropWS at hy ⊢
  rw [List.reverse_append, List.dropWhile_append]
  have : (y.reverse.dropWhile isPySpace).isEmpty = true := by
    rw [List.isEmpty_iff]
    exact List.reverse_eq_nil_iff.mp hy
  rw [this]
  simp

theorem rdropWS_append_ws {c : Char} (hc : isPySpace c = true) (x : List Char) :
    rdropWS (x ++ [c]) = rdropWS x := by
  apply rdropWS_append_all_ws
  simp [rdropWS, List.dropWhile_cons, hc]

theorem rdropWS_idem (l : List Char) : rdropWS (rdropWS l) = rdropWS l := by
  unfold rdropWS
  rw [List.reverse_reverse]
  cases hd : l.reverse.dropWhile isPySpace with
  | nil => simp
  | cons a as =>
    have ha : ¬ isPySpace a = true := by
      have := List.head?_dropWhile_not isPySpace l.reverse
      rw [hd] at this
      simpa using this
    rw [List.dropWhile_cons, if_neg ha]

theorem rdropWS_cons (c : Char) (t : List Char) :
    rdropWS (c :: t) =
      if rdropWS t = [] then (if isPySpace c then [] else [c]) else c :: rdropWS t := by
  have h1 : c :: t = [c] ++ t := rfl
  by_cases ht : rdropWS t = []
  · rw [if_pos ht, h1, rdropWS_append_all_ws [c] ht]
    by_cases hc : isPySpace c
    · rw [if_pos hc]
      exact rdropWS_eq_nil_iff.mpr (by intro d hd; simp at hd; subst hd; exact hc)
    · rw [if_neg hc]
      unfold rdropWS
      simp [List.dropWhile_cons, hc]
  · rw [if_neg ht, h1, rdropWS_append_keep [c] ht]
    rfl

theorem strip_commute (l : List Char) : ldropWS (rdropWS l) = rdropWS (ldropWS l) := by
  induction l with
  | nil => rfl
  | cons c t ih =>
    by_cases hc : isPySpace c
    · rw [ldropWS_cons_ws hc, ← ih, rdropWS_cons]
      by_cases ht : rdropWS t = []
      · rw [if_pos ht, if_pos hc, ht]
      · rw [if_neg ht]
        exact ldropWS_cons_ws hc _
    · rw [ldropWS_cons_no_ws hc, rdropWS_cons]
      by_cases ht : rdropWS t = []
      · rw [if_pos ht, if_neg hc]
        exact ldropWS_cons_no_ws hc []
      · rw [if_neg ht]
        exact ldropWS_cons_no_ws hc _

theorem pyStripL_eq_comm (l : List Char) : pyStripL l = ldropWS (rdropWS l) :=
  (strip_commute l).symm

theorem pyStripL_cons_ws {c : Char} (hc : isPySpace c = true) (l : List Char) :
    pyStripL (c :: l) = pyStripL l := by
  unfold pyStripL
  rw [ldropWS_cons_ws hc]

theorem pyStripL_append_ws {c : Char} (hc : isPySpace c = true) (l : List Char) :
    pyStripL (l ++ [c]) = pyStripL l := by
  rw [pyStripL_eq_comm, pyStripL_eq_comm, rdropWS_append_ws hc]

theorem pyStripL_rdrop (l : List Char) : pyStripL (rdropWS l) = pyStripL l := by
  rw [pyStripL_eq_comm, pyStripL_eq_comm, rdropWS_idem]

theorem trimmedNE_ne_nil {l : List Char} (h : ReactSwe.ResponseParser.trimmedNE l = true) :
    l ≠ [] := by
  intro hnil
  subst hnil
  simp [ReactSwe.ResponseParser.trimmedNE] at h

theorem trimmedNE_ldrop {l : List Char} (h : ReactSwe.ResponseParser.trimmedNE l = true) :
    ldropWS l = l := by
  cases l with
  | nil => rfl
  | cons c t =>
    have hc : ¬ isPySpace c = true := by
      simp [ReactSwe.ResponseParser.trimmedNE] at h
      simpa using h.1
    exact ldropWS_cons_no_ws hc t

theorem trimmedNE_rdrop {l : List Char} (h : ReactSwe.ResponseParser.trimmedNE l = true) :
    rdropWS l = l := by
  unfold rdropWS
  cases hr : l.reverse with
  | nil =>
    exact absurd (List.reverse_eq_nil_iff.mp hr) (trimmedNE_ne_nil h)
  | cons c t =>
    have hlast : l.getLast? = some c := by
      rw [← List.head?_reverse, hr]
      rfl
    have hc : ¬ isPySpace c = true := by
      simp only [ReactSwe.ResponseParser.trimmedNE, Bool.and_eq_true] at h
      rw [hlast] at h
      simpa using h.2
    rw [List.dropWhile_cons, if_neg hc, ← hr, List.reverse_reverse]

theorem trimmedNE_strip {l : List Char} (h : ReactSwe.ResponseParser.trimmedNE l = true) :
    pyStripL l = l := by
  unfold pyStripL
  rw [trimmedNE_ldrop h, trimmedNE_rdrop h]

theorem pyStripL_trimmed_append {A : List Char} (h : ReactSwe.ResponseParser.trimmedNE A = true)
    (X : List Char) : pyStripL (A ++ X) = A ++ rdropWS X := by
  unfold pyStripL
  have hld : ldropWS (A ++ X) = A ++ X := by
    rw [ldropWS_append, trimmedNE_ldrop h]
    have : A.isEmpty = false := by
      cases A with
      | nil => exact absurd rfl (trimmedNE_ne_nil h)
      | cons a as => rfl
    rw [this]
    simp
  rw [hld]
  by_cases hx : rdropWS X = []
  · rw [rdropWS_append_all_ws A hx, trimmedNE_rdrop h, hx, List.append_nil]
  · rw [rdropWS_append_keep A hx]

theorem pyStripL_ne_nil_of_mem {l : List Char} {c : Char} (hc : c ∈ l)
    (hws : ¬ isPySpace c = true) : pyStripL l ≠ [] := by
  intro h
  unfold pyStripL at h
  have h1 : ∀ d ∈ ldropWS l, isPySpace d = true := rdropWS_eq_nil_iff.mp h
  have h2 : ∀ d ∈ l.takeWhile isPySpace, isPySpace d = true := fun d hd =>
    List.mem_takeWhile_imp hd
  have : c ∈ l.takeWhile isPySpace ++ l.dropWhile isPySpace := by
    rw [List.takeWhile_append_dropWhile]
    exact hc
  rcases List.mem_append.mp this with h3 | h3
  · exact hws (h2 c h3)
  · exact hws (h1 c h3)

theorem pyStripL_nil_of_all_ws {l : List Char} (h : ∀ c ∈ l, isPySpace c = true) :
    pyStripL l = [] := by
  unfold pyStripL
  rw [ldropWS_eq_nil_iff.mpr h]
  rfl

theorem containsL_iff {l pat : List Char} : containsL l pat = true ↔ pat <:+: l := by
  unfold containsL
  cases h : findOcc l pat with
  | none =>
    simp only [Option.isSome_none]
    constructor
    · intro hfalse
      exact absurd hfalse (by simp)
    · intro hinf
      obtain ⟨i, hpre⟩ := infix_iff_drop.mp hinf
      exact absurd hpre (findOcc_none h i)
  | some i =>
    simp only [Option.isSome_some, true_iff]
    exact infix_of_pfx_drop (findOcc_some h).1

theorem not_contains_iff {l pat : List Char} : containsL l pat = false ↔ ¬ pat <:+: l := by
  rw [← containsL_iff]
  cases containsL l pat <;> simp

theorem findOcc_none_of_not_inf {l pat : List Char} (h : ¬ pat <:+: l) :
    findOcc l pat = none := by
  cases hf : findOcc l pat with
  | none => rfl
  | some i => exact absurd (infix_of_pfx_drop (findOcc_some hf).1) h

theorem not_inf_append_nl {pat x y : List Char} (hnl : '\n' ∉ pat)
    (hx : ¬ pat <:+: x) (hy : ¬ pat <:+: y) : ¬ pat <:+: (x ++ '\n' :: y) := fun h =>
  (infix_split_char hnl h).elim hx hy

theorem not_inf_cons_nl {pat y : List Char} (hnl : '\n' ∉ pat) (hpat : pat ≠ [])
    (hy : ¬ pat <:+: y) : ¬ pat <:+: ('\n' :: y) := by
  have : ('\n' :: y) = [] ++ '\n' :: y := rfl
  rw [this]
  exact not_inf_append_nl hnl (fun h => hpat (List.eq_nil_of_infix_nil h)) hy

theorem not_inf_of_rdrop {pat y : List Char} (hy : ¬ pat <:+: y) :
    ¬ pat <:+: rdropWS y := by
  intro h
  apply hy
  apply h.trans
  unfold rdropWS
  have h1 : y.reverse.dropWhile isPySpace <:+ y.reverse := List.dropWhile_suffix isPySpace
  have h2 : (y.reverse.dropWhile isPySpace).reverse <+: y.reverse.reverse :=
    List.reverse_prefix.mpr h1
  rw [List.reverse_reverse] at h2
  exact h2.isInfix

namespace ResponseParser

theorem nl_data : ("\n" : String).data = ['\n'] := rfl

theorem asString_data (s : String) : s.data.asString = s := rfl

theorem BL_ne_nil : BEGIN_CALL.data ≠ [] := by decide

theorem EL_ne_nil : END_CALL.data ≠ [] := by decide

theorem AL_ne_nil : ARG_SEP.data ≠ [] := by decide

theorem VL_ne_nil : VALUE_SEP.data ≠ [] := by decide

theorem nl_not_mem_BL : '\n' ∉ BEGIN_CALL.data := by decide

theorem nl_not_mem_EL : '\n' ∉ END_CALL.data := by decide

theorem nl_not_mem_AL : '\n' ∉ ARG_SEP.data := by decide

theorem nl_not_mem_VL : '\n' ∉ VALUE_SEP.data := by decide

theorem trimmedNE_VL : trimmedNE VALUE_SEP.data = true := by decide

theorem dash_mem_VL : '-' ∈ VALUE_SEP.data := by decide

theorem dash_not_ws : ¬ isPySpace '-' = true := by decide

theorem not_AL_inf_VL : ¬ ARG_SEP.data <:+: VALUE_SEP.data := by
  rw [← not_contains_iff]
  decide

theorem not_BL_inf_AL : ¬ BEGIN_CALL.data <:+: ARG_SEP.data := by
  rw [← not_contains_iff]
  decide

theorem not_BL_inf_VL : ¬ BEGIN_CALL.data <:+: VALUE_SEP.data := by
  rw [← not_contains_iff]
  decide

theorem not_EL_inf_AL : ¬ END_CALL.data <:+: ARG_SEP.data := by
  rw [← not_contains_iff]
  decide

theorem not_EL_inf_VL : ¬ END_CALL.data <:+: VALUE_SEP.data := by
  rw [← not_contains_iff]
  decide

theorem argsRender_cons_data (p : String × String) (rest : List (String × String)) :
    (argsRender (p :: rest)).data =
      ARG_SEP.data ++ '\n' :: (p.1.data ++ '\n' :: (VALUE_SEP.data ++ '\n' ::
        (p.2.data ++ '\n' :: (argsRender rest).data))) := by
  show (ARG_SEP ++ "\n" ++ p.1 ++ "\n" ++ VALUE_SEP ++ "\n" ++ p.2 ++ "\n" ++ argsRender rest).data = _
  simp [String.data_append, nl_data]

theorem argsRender_nil_data : (argsRender []).data = [] := rfl

theorem argsRender_cons_chunk (p : String × String) (rest : List (String × String)) :
    (argsRender (p :: rest)).data = chunkL p ++ (argsRender rest).data := by
  rw [argsRender_cons_data]
  simp [chunkL]

theorem wfName_spec {s : String} (h : wfName s = true) :
    trimmedNE s.data = true ∧ ¬ BEGIN_CALL.data <:+: s.data ∧ ¬ END_CALL.data <:+: s.data ∧
      ¬ ARG_SEP.data <:+: s.data ∧ ¬ VALUE_SEP.data <:+: s.data := by
  simp only [wfName, markerFree, containsStr, Bool.and_eq_true, Bool.not_eq_true'] at h
  obtain ⟨h1, ⟨⟨h2, h3⟩, h4⟩, h5⟩ := h
  exact ⟨h1, not_contains_iff.mp h2, not_contains_iff.mp h3,
    not_contains_iff.mp h4, not_contains_iff.mp h5⟩

theorem wfArg_spec {p : String × String} (h : wfArg p = true) :
    trimmedNE p.1.data = true ∧
      (¬ BEGIN_CALL.data <:+: p.1.data ∧ ¬ END_CALL.data <:+: p.1.data ∧
        ¬ ARG_SEP.data <:+: p.1.data ∧ ¬ VALUE_SEP.data <:+: p.1.data) ∧
      (¬ BEGIN_CALL.data <:+: p.2.data ∧ ¬ END_CALL.data <:+: p.2.data ∧
        ¬ ARG_SEP.data <:+: p.2.data ∧ ¬ VALUE_SEP.data <:+: p.2.data) := by
  simp only [wfArg, markerFree, containsStr, Bool.and_eq_true, Bool.not_eq_true'] at h
  obtain ⟨⟨h1, ⟨⟨h2, h3⟩, h4⟩, h5⟩, ⟨⟨h6, h7⟩, h8⟩, h9⟩ := h
  exact ⟨h1, ⟨not_contains_iff.mp h2, not_contains_iff.mp h3,
    not_contains_iff.mp h4, not_contains_iff.mp h5⟩,
    ⟨not_contains_iff.mp h6, not_contains_iff.mp h7,
      not_contains_iff.mp h8, not_contains_iff.mp h9⟩⟩

end ResponseParser

namespace ResponseParser

theorem not_inf_AR {pat : List Char} (hnl : '\n' ∉ pat) (hpat : pat ≠ [])
    (hAL : ¬ pat <:+: ARG_SEP.data) (hVL : ¬ pat <:+: VALUE_SEP.data) :
    ∀ (args : List (String × String)),
      (∀ p ∈ args, ¬ pat <:+: p.1.data ∧ ¬ pat <:+: p.2.data) →
      ¬ pat <:+: (argsRender args).data := by
  intro args
  induction args with
  | nil =>
    intro _ h
    rw [argsRender_nil_data] at h
    exact hpat (List.eq_nil_of_infix_nil h)
  | cons p rest ih =>
    intro hmem h
    rw [argsRender_cons_data] at h
    obtain ⟨hk, hv⟩ := hmem p (List.mem_cons_self p rest)
    rcases infix_split_char hnl h with h1 | h1
    · exact hAL h1
    rcases infix_split_char hnl h1 with h2 | h2
    · exact hk h2
    rcases infix_split_char hnl h2 with h3 | h3
    · exact hVL h3
    rcases infix_split_char hnl h3 with h4 | h4
    · exact hv h4
    · exact ih (fun q hq => hmem q (List.mem_cons_of_mem p hq)) h4

theorem strippedAR_ne_nil (args : List (String × String)) (h : args ≠ []) :
    strippedAR args ≠ [] := by
  cases args with
  | nil => exact absurd rfl h
  | cons p rest =>
    cases rest with
    | nil =>
      simp only [strippedAR]
      intro hx
      exact AL_ne_nil (List.append_eq_nil.mp hx).1
    | cons q rest' =>
      simp only [strippedAR]
      intro hx
      rw [List.append_assoc] at hx
      exact AL_ne_nil (List.append_eq_nil.mp hx).1

theorem rdropWS_chunk (p : String × String) :
    rdropWS (chunkL p) = ARG_SEP.data ++ lastSecL p := by
  have hregroup : chunkL p =
      (ARG_SEP.data ++ '\n' :: p.1.data ++ '\n' :: VALUE_SEP.data ++ ['\n']) ++
        (p.2.data ++ ['\n']) := by
    simp [chunkL]
  rw [hregroup]
  by_cases hv : rdropWS p.2.data = []
  · have hv2 : rdropWS (p.2.data ++ ['\n']) = [] := by
      rw [rdropWS_append_ws (by decide), hv]
    rw [rdropWS_append_all_ws _ hv2, rdropWS_append_ws (by decide)]
    have hVLkeep : rdropWS VALUE_SEP.data ≠ [] := by
      rw [trimmedNE_rdrop trimmedNE_VL]
      exact VL_ne_nil
    have hregroup2 : ARG_SEP.data ++ '\n' :: p.1.data ++ '\n' :: VALUE_SEP.data =
        (ARG_SEP.data ++ '\n' :: p.1.data ++ ['\n']) ++ VALUE_SEP.data := by
      simp
    rw [hregroup2, rdropWS_append_keep _ hVLkeep, trimmedNE_rdrop trimmedNE_VL]
    simp [lastSecL, hv]
  · have hv2 : rdropWS (p.2.data ++ ['\n']) ≠ [] := by
      rw [rdropWS_append_ws (by decide)]
      exact hv
    rw [rdropWS_append_keep _ hv2, rdropWS_append_ws (by decide)]
    simp [lastSecL, hv]

theorem rdrop_AR_eq :
    ∀ (args : List (String × String)), args ≠ [] →
      rdropWS ((argsRender args).data) = strippedAR args := by
  intro args
  induction args with
  | nil => intro h; exact absurd rfl h
  | cons p rest ih =>
    intro _
    rw [argsRender_cons_chunk]
    cases rest with
    | nil =>
      rw [argsRender_nil_data, List.append_nil, rdropWS_chunk]
      simp [strippedAR]
    | cons q rest' =>
      have hrest : rdropWS ((argsRender (q :: rest')).data) = strippedAR (q :: rest') :=
        ih (by simp)
      have hne : rdropWS ((argsRender (q :: rest')).data) ≠ [] := by
        rw [hrest]
        exact strippedAR_ne_nil _ (by simp)
      rw [rdropWS_append_keep _ hne, hrest]
      simp [strippedAR, chunkL, midSecL]

theorem not_AL_inf_lastSec {p : String × String}
    (hk : ¬ ARG_SEP.data <:+: p.1.data) (hv : ¬ ARG_SEP.data <:+: p.2.data) :
    ¬ ARG_SEP.data <:+: lastSecL p := by
  unfold lastSecL
  by_cases hcase : rdropWS p.2.data = []
  · rw [if_pos hcase]
    have hform : '\n' :: p.1.data ++ '\n' :: VALUE_SEP.data =
        '\n' :: (p.1.data ++ '\n' :: VALUE_SEP.data) := by simp
    rw [hform]
    exact not_inf_cons_nl nl_not_mem_AL AL_ne_nil
      (not_inf_append_nl nl_not_mem_AL hk not_AL_inf_VL)
  · rw [if_neg hcase]
    have hform : '\n' :: p.1.data ++ '\n' :: VALUE_SEP.data ++ '\n' :: rdropWS p.2.data =
        '\n' :: (p.1.data ++ '\n' :: (VALUE_SEP.data ++ '\n' :: rdropWS p.2.data)) := by simp
    rw [hform]
    exact not_inf_cons_nl nl_not_mem_AL AL_ne_nil
      (not_inf_append_nl nl_not_mem_AL hk
        (not_inf_append_nl nl_not_mem_AL not_AL_inf_VL (not_inf_of_rdrop hv)))

theorem not_AL_inf_midSec_nl {p : String × String}
    (hk : ¬ ARG_SEP.data <:+: p.1.data) (hv : ¬ ARG_SEP.data <:+: p.2.data) :
    ¬ ARG_SEP.data <:+:
      (('\n' :: p.1.data ++ '\n' :: VALUE_SEP.data ++ '\n' :: p.2.data) ++ ['\n']) := by
  have hform : ('\n' :: p.1.data ++ '\n' :: VALUE_SEP.data ++ '\n' :: p.2.data) ++ ['\n'] =
      '\n' :: (p.1.data ++ '\n' :: (VALUE_SEP.data ++ '\n' :: (p.2.data ++ '\n' :: []))) := by
    simp
  rw [hform]
  refine not_inf_cons_nl nl_not_mem_AL AL_ne_nil
    (not_inf_append_nl nl_not_mem_AL hk
      (not_inf_append_nl nl_not_mem_AL not_AL_inf_VL
        (not_inf_append_nl nl_not_mem_AL hv ?_)))
  intro h
  exact AL_ne_nil (List.eq_nil_of_infix_nil h)

theorem split_secs :
    ∀ (args : List (String × String)), args ≠ [] →
      (∀ p ∈ args, ¬ ARG_SEP.data <:+: p.1.data ∧ ¬ ARG_SEP.data <:+: p.2.data) →
      ∀ (x : List Char), ¬ ARG_SEP.data <:+: (x ++ ['\n']) →
        splitOnL ARG_SEP.data ((x ++ ['\n']) ++ strippedAR args) =
          (x ++ ['\n']) :: secsOfL args := by
  intro args
  induction args with
  | nil => intro h; exact absurd rfl h
  | cons p rest ih =>
    intro _ hmem x hx
    obtain ⟨hk, hv⟩ := hmem p (List.mem_cons_self p rest)
    cases rest with
    | nil =>
      show splitOnL ARG_SEP.data ((x ++ ['\n']) ++ (ARG_SEP.data ++ lastSecL p)) = _
      rw [← List.append_assoc]
      rw [splitOnL_cons AL_ne_nil
        (by
          have hlen : (x ++ ['\n']).length = x.length + 1 := by simp
          have := findOcc_anchor x '\n' ARG_SEP.data (lastSecL p) nl_not_mem_AL hx
          rw [hlen] at this ⊢
          exact this)]
      rw [splitOnL_single (findOcc_none_of_not_inf (not_AL_inf_lastSec hk hv))]
      rfl
    | cons q rest' =>
      show splitOnL ARG_SEP.data
          ((x ++ ['\n']) ++ (ARG_SEP.data ++ midSecL p ++ strippedAR (q :: rest'))) = _
      have hregroup : (x ++ ['\n']) ++ (ARG_SEP.data ++ midSecL p ++ strippedAR (q :: rest')) =
          (x ++ ['\n']) ++ ARG_SEP.data ++ (midSecL p ++ strippedAR (q :: rest')) := by
        simp
      rw [hregroup]
      rw [splitOnL_cons AL_ne_nil
        (by
          have hlen : (x ++ ['\n']).length = x.length + 1 := by simp
          have := findOcc_anchor x '\n' ARG_SEP.data (midSecL p ++ strippedAR (q :: rest'))
            nl_not_mem_AL hx
          rw [hlen] at this ⊢
          exact this)]
      have hmid : midSecL p ++ strippedAR (q :: rest') =
          (('\n' :: p.1.data ++ '\n' :: VALUE_SEP.data ++ '\n' :: p.2.data) ++ ['\n']) ++
            strippedAR (q :: rest') := by
        simp [midSecL]
      rw [hmid, ih (by simp) (fun r hr => hmem r (List.mem_cons_of_mem p hr)) _
        (not_AL_inf_midSec_nl hk hv)]
      have hmid2 : ('\n' :: p.1.data ++ '\n' :: VALUE_SEP.data ++ '\n' :: p.2.data) ++ ['\n'] =
          midSecL p := by
        simp [midSecL]
      rw [hmid2]
      rfl

theorem dictInsert_append {m : List (String × String)} {k v : String}
    (h : ∀ q ∈ m, q.1 ≠ k) : dictInsert m k v = m ++ [(k, v)] := by
  unfold dictInsert
  have hany : (m.any fun p => p.1 == k) = false := by
    rw [List.any_eq_false]
    intro q hq
    simpa using h q hq
  rw [hany]
  simp

theorem section_split (k : String) (Z : List Char) (hkVL : ¬ VALUE_SEP.data <:+: k.data) :
    splitOnceL VALUE_SEP.data ((('\n' :: k.data) ++ ['\n']) ++ VALUE_SEP.data ++ Z) =
      some ((('\n' :: k.data) ++ ['\n']), Z) := by
  have hx : ¬ VALUE_SEP.data <:+: (('\n' :: k.data) ++ ['\n']) := by
    have hform : ('\n' :: k.data) ++ ['\n'] = '\n' :: (k.data ++ '\n' :: []) := by simp
    rw [hform]
    refine not_inf_cons_nl nl_not_mem_VL VL_ne_nil
      (not_inf_append_nl nl_not_mem_VL hkVL ?_)
    intro h
    exact VL_ne_nil (List.eq_nil_of_infix_nil h)
  have hanchor := findOcc_anchor ('\n' :: k.data) '\n' VALUE_SEP.data Z nl_not_mem_VL hx
  unfold splitOnceL
  rw [hanchor]
  dsimp only
  have htake : ((('\n' :: k.data) ++ ['\n']) ++ VALUE_SEP.data ++ Z).take
      (('\n' :: k.data) ++ ['\n']).length = ('\n' :: k.data) ++ ['\n'] := by
    rw [List.append_assoc, List.take_left]
  have hdrop : ((('\n' :: k.data) ++ ['\n']) ++ VALUE_SEP.data ++ Z).drop
      ((('\n' :: k.data) ++ ['\n']).length + VALUE_SEP.data.length) = Z := by
    have hlen : ((('\n' :: k.data) ++ ['\n']) ++ VALUE_SEP.data).length =
        (('\n' :: k.data) ++ ['\n']).length + VALUE_SEP.data.length := by
      rw [List.length_append]
    rw [← hlen, List.drop_left]
  rw [htake, hdrop]

theorem section_name_strip (k : String) (hk : trimmedNE k.data = true) :
    pyStripL (('\n' :: k.data) ++ ['\n']) = k.data := by
  have hform : ('\n' :: k.data) ++ ['\n'] = '\n' :: (k.data ++ ['\n']) := by simp
  rw [hform, pyStripL_cons_ws (by decide), pyStripL_append_ws (by decide),
    trimmedNE_strip hk]

theorem section_nonblank (k : String) (Z : List Char) :
    pyStripL ((('\n' :: k.data) ++ ['\n']) ++ VALUE_SEP.data ++ Z) ≠ [] := by
  apply pyStripL_ne_nil_of_mem (c := '-')
  · exact List.mem_append.mpr (Or.inl (List.mem_append.mpr (Or.inr dash_mem_VL)))
  · exact dash_not_ws


theorem parseArgsL_cons_sec (k : String) (Z : List Char) (rest' : List (List Char))
    (acc : List (String × String))
    (hkt : trimmedNE k.data = true) (hkVL : ¬ VALUE_SEP.data <:+: k.data) :
    parseArgsL (((('\n' :: k.data) ++ ['\n']) ++ VALUE_SEP.data ++ Z) :: rest') acc =
      parseArgsL rest' (dictInsert acc k (pyStripL Z).asString) := by
  have hnb := section_nonblank k Z
  simp only [parseArgsL]
  rw [if_neg hnb, section_split k Z hkVL]
  simp only [section_name_strip k hkt]
  rw [if_neg (trimmedNE_ne_nil hkt), asString_data]

theorem value_strip_mid (v : String) :
    pyStripL ('\n' :: v.data ++ ['\n']) = (pyStrip v).data := by
  have hform : '\n' :: v.data ++ ['\n'] = '\n' :: (v.data ++ ['\n']) := by simp
  rw [hform, pyStripL_cons_ws (by decide), pyStripL_append_ws (by decide)]
  rfl

theorem value_strip_last (v : String) :
    pyStripL ('\n' :: rdropWS v.data) = (pyStrip v).data := by
  have hform : ('\n' :: rdropWS v.data) = '\n' :: rdropWS v.data := rfl
  rw [pyStripL_cons_ws (by decide), pyStripL_rdrop]
  rfl

theorem value_strip_ws {v : String} (hv : rdropWS v.data = []) :
    pyStripL ([] : List Char) = (pyStrip v).data := by
  have : pyStripL v.data = [] := pyStripL_nil_of_all_ws (rdropWS_eq_nil_iff.mp hv)
  show ([] : List Char) = (pyStrip v).data
  rw [pyStrip, this]
  rfl

theorem parseArgs_secs :
    ∀ (args acc : List (String × String)),
      (∀ p ∈ args, wfArg p = true) →
      (∀ p ∈ args, ∀ q ∈ acc, q.1 ≠ p.1) →
      ((args.map Prod.fst).Nodup) →
      parseArgsL (secsOfL args) acc = .ok (acc ++ trimValues args) := by
  intro args
  induction args with
  | nil =>
    intro acc _ _ _
    simp [secsOfL, parseArgsL, trimValues]
  | cons p rest ih =>
    intro acc hwf hdisj hnodup
    obtain ⟨hkt, hkm, hvm⟩ := wfArg_spec (hwf p (List.mem_cons_self p rest))
    have hdi : dictInsert acc p.1 (pyStrip p.2) = acc ++ [(p.1, pyStrip p.2)] :=
      dictInsert_append (fun q hq => hdisj p (List.mem_cons_self p rest) q hq)
    cases rest with
    | nil =>
      by_cases hv : rdropWS p.2.data = []
      · have hform : secsOfL [p] =
            [(('\n' :: p.1.data) ++ ['\n']) ++ VALUE_SEP.data ++ ([] : List Char)] := by
          simp [secsOfL, lastSecL, hv]
        rw [hform, parseArgsL_cons_sec p.1 [] [] acc hkt hkm.2.2.2]
        have hval : (pyStripL ([] : List Char)).asString = pyStrip p.2 := by
          rw [value_strip_ws hv]
          rfl
        rw [hval, hdi]
        simp [parseArgsL, trimValues]
      · have hform : secsOfL [p] =
            [(('\n' :: p.1.data) ++ ['\n']) ++ VALUE_SEP.data ++ ('\n' :: rdropWS p.2.data)] := by
          simp [secsOfL, lastSecL, hv]
        rw [hform, parseArgsL_cons_sec p.1 ('\n' :: rdropWS p.2.data) [] acc hkt hkm.2.2.2]
        have hval : (pyStripL ('\n' :: rdropWS p.2.data)).asString = pyStrip p.2 := by
          rw [value_strip_last]
          rfl
        rw [hval, hdi]
        simp [parseArgsL, trimValues]
    | cons q rest' =>
      have hform : secsOfL (p :: q :: rest') =
          ((('\n' :: p.1.data) ++ ['\n']) ++ VALUE_SEP.data ++ ('\n' :: p.2.data ++ ['\n'])) ::
            secsOfL (q :: rest') := by
        simp [secsOfL, midSecL]
      rw [hform, parseArgsL_cons_sec p.1 ('\n' :: p.2.data ++ ['\n']) _ acc hkt hkm.2.2.2]
      have hval : (pyStripL ('\n' :: p.2.data ++ ['\n'])).asString = pyStrip p.2 := by
        rw [value_strip_mid]
        rfl
      rw [hval, hdi]
      have hnodup' : ((q :: rest').map Prod.fst).Nodup := by
        simp only [List.map_cons, List.nodup_cons] at hnodup ⊢
        exact ⟨hnodup.2.1, hnodup.2.2⟩
      have hp_not_mem : ∀ r ∈ q :: rest', p.1 ≠ r.1 := by
        intro r hr heq
        have hmm : p.1 ∈ (q :: rest').map Prod.fst := List.mem_map.mpr ⟨r, hr, heq.symm⟩
        have hn2 : (p.1 :: ((q :: rest').map Prod.fst)).Nodup := by simpa using hnodup
        exact (List.nodup_cons.mp hn2).1 hmm
      have hdisj' : ∀ r ∈ q :: rest', ∀ s ∈ acc ++ [(p.1, pyStrip p.2)], s.1 ≠ r.1 := by
        intro r hr s hs
        rcases List.mem_append.mp hs with hs | hs
        · exact hdisj r (List.mem_cons_of_mem p hr) s hs
        · simp only [List.mem_singleton] at hs
          subst hs
          exact hp_not_mem r hr
      rw [ih (acc ++ [(p.1, pyStrip p.2)])
        (fun r hr => hwf r (List.mem_cons_of_mem p hr)) hdisj' hnodup']
      simp [trimValues]

theorem parse_renderCall (pre name : String) (args : List (String × String))
    (hname : wfName name = true)
    (hargs : ∀ p ∈ args, wfArg p = true)
    (hnodup : (args.map Prod.fst).Nodup) :
    parse (pre ++ "\n" ++ BEGIN_CALL ++ "\n" ++ name ++ "\n" ++ argsRender args ++ END_CALL) =
      .ok ⟨pyStrip pre, name, trimValues args⟩ := by
  obtain ⟨hnT, hnBL, hnEL, hnAL, hnVL⟩ := wfName_spec hname
  have hargfacts : ∀ p ∈ args,
      (¬ BEGIN_CALL.data <:+: p.1.data ∧ ¬ BEGIN_CALL.data <:+: p.2.data) := by
    intro p hp
    obtain ⟨-, hm1, hm2⟩ := wfArg_spec (hargs p hp)
    exact ⟨hm1.1, hm2.1⟩
  have hAR : ¬ BEGIN_CALL.data <:+: (argsRender args).data :=
    not_inf_AR nl_not_mem_BL BL_ne_nil not_BL_inf_AL not_BL_inf_VL args hargfacts
  have hdata : (pre ++ "\n" ++ BEGIN_CALL ++ "\n" ++ name ++ "\n" ++ argsRender args ++
      END_CALL).data =
      ((pre.data ++ ['\n']) ++ BEGIN_CALL.data ++
        ('\n' :: (name.data ++ '\n' :: (argsRender args).data))) ++ END_CALL.data := by
    simp [String.data_append, nl_data]
  have hbody : ¬ BEGIN_CALL.data <:+: ('\n' :: (name.data ++ '\n' :: (argsRender args).data)) :=
    not_inf_cons_nl nl_not_mem_BL BL_ne_nil (not_inf_append_nl nl_not_mem_BL hnBL hAR)
  simp only [parse]
  rw [hdata, rfind_append_self _ _ EL_ne_nil]
  dsimp only
  rw [List.take_left]
  rw [rfind_anchor (pre.data ++ ['\n']) BEGIN_CALL.data
    (name.data ++ '\n' :: (argsRender args).data) BL_ne_nil nl_not_mem_BL hbody]
  dsimp only
  have htb : (((pre.data ++ ['\n']) ++ BEGIN_CALL.data ++
      ('\n' :: (name.data ++ '\n' :: (argsRender args).data))) ++ END_CALL.data).take
        (pre.data ++ ['\n']).length =
      pre.data ++ ['\n'] := by
    rw [List.take_append_of_le_length (by simp), List.take_append_of_le_length (by simp),
      List.take_append_of_le_length (by simp), List.take_length]
  have hdb : ((pre.data ++ ['\n']) ++ BEGIN_CALL.data ++
      ('\n' :: (name.data ++ '\n' :: (argsRender args).data))).drop
      ((pre.data ++ ['\n']).length + BEGIN_CALL.data.length) =
      '\n' :: (name.data ++ '\n' :: (argsRender args).data) := by
    have hl : ((pre.data ++ ['\n']) ++ BEGIN_CALL.data).length =
        (pre.data ++ ['\n']).length + BEGIN_CALL.data.length := by
      rw [List.length_append]
    rw [← hl, List.drop_left]
  rw [htb, hdb]
  have hthought : pyStripL (pre.data ++ ['\n']) = (pyStrip pre).data := by
    rw [pyStripL_append_ws (by decide)]
    rfl
  cases args with
  | nil =>
    have hcb : pyStripL ('\n' :: (name.data ++ '\n' :: (argsRender []).data)) = name.data := by
      rw [argsRender_nil_data]
      rw [pyStripL_cons_ws (by decide)]
      have hform : name.data ++ '\n' :: ([] : List Char) = name.data ++ ['\n'] := rfl
      rw [hform, pyStripL_append_ws (by decide), trimmedNE_strip hnT]
    rw [hcb, if_neg (trimmedNE_ne_nil hnT)]
    rw [splitOnL_single (findOcc_none_of_not_inf hnAL)]
    dsimp only [List.headD, List.tail]
    rw [trimmedNE_strip hnT, if_neg (trimmedNE_ne_nil hnT)]
    dsimp only [parseArgsL]
    rw [hthought]
    rfl
  | cons p rest =>
    have hne : (p :: rest) ≠ [] := by simp
    have hrdAR : rdropWS ((argsRender (p :: rest)).data) = strippedAR (p :: rest) :=
      rdrop_AR_eq (p :: rest) hne
    have hrdne : rdropWS ((argsRender (p :: rest)).data) ≠ [] := by
      rw [hrdAR]
      exact strippedAR_ne_nil _ hne
    have hcb : pyStripL ('\n' :: (name.data ++ '\n' :: (argsRender (p :: rest)).data)) =
        (name.data ++ ['\n']) ++ strippedAR (p :: rest) := by
      rw [pyStripL_cons_ws (by decide)]
      have hform : name.data ++ '\n' :: (argsRender (p :: rest)).data =
          name.data ++ ('\n' :: (argsRender (p :: rest)).data) := rfl
      rw [hform, pyStripL_trimmed_append hnT, rdropWS_cons, if_neg hrdne, hrdAR]
      simp
    rw [hcb]
    have hcbne : (name.data ++ ['\n']) ++ strippedAR (p :: rest) ≠ [] := by
      simp
    rw [if_neg hcbne]
    have hALfacts : ∀ q ∈ p :: rest,
        ¬ ARG_SEP.data <:+: q.1.data ∧ ¬ ARG_SEP.data <:+: q.2.data := by
      intro q hq
      obtain ⟨-, hm1, hm2⟩ := wfArg_spec (hargs q hq)
      exact ⟨hm1.2.2.1, hm2.2.2.1⟩
    have hxAL : ¬ ARG_SEP.data <:+: (name.data ++ ['\n']) := by
      have hform : name.data ++ ['\n'] = name.data ++ '\n' :: ([] : List Char) := rfl
      rw [hform]
      refine not_inf_append_nl nl_not_mem_AL hnAL ?_
      intro h
      exact AL_ne_nil (List.eq_nil_of_infix_nil h)
    rw [split_secs (p :: rest) hne hALfacts name.data hxAL]
    dsimp only [List.headD, List.tail]
    have hhead : pyStripL (name.data ++ ['\n']) = name.data := by
      rw [pyStripL_append_ws (by decide), trimmedNE_strip hnT]
    rw [hhead, if_neg (trimmedNE_ne_nil hnT)]
    rw [parseArgs_secs (p :: rest) [] hargs (by intro a ha q hq; simp at hq) hnodup]
    rw [hthought]
    rfl

theorem data_asString (l : List Char) : (l.asString).data = l := rfl

theorem asString_append (a b : List Char) : (a ++ b).asString = a.asString ++ b.asString := by
  apply String.ext
  simp [String.data_append, data_asString]

theorem renderCall_data (t n : String) (a : List (String × String)) :
    (renderCall t n a).data =
      ((t.data ++ ['\n']) ++ BEGIN_CALL.data ++
        ('\n' :: (n.data ++ '\n' :: (argsRender a).data))) ++ END_CALL.data := by
  show (t ++ "\n" ++ BEGIN_CALL ++ "\n" ++ n ++ "\n" ++ argsRender a ++ END_CALL).data = _
  simp [String.data_append, nl_data]

theorem renderCall_trimmedNE {t : String} (n : String) (a : List (String × String))
    (ht : trimmedNE t.data = true) : trimmedNE (renderCall t n a).data = true := by
  rw [renderCall_data]
  unfold trimmedNE at ht ⊢
  rw [Bool.and_eq_true] at ht ⊢
  constructor
  · cases hd : t.data with
    | nil => rw [hd] at ht; simp at ht
    | cons c cs =>
      rw [hd] at ht
      have h1 : (((cs ++ ['\n']) ++ BEGIN_CALL.data ++
          ('\n' :: (n.data ++ '\n' :: (argsRender a).data))) ++ END_CALL.data) =
          ((cs ++ ['\n']) ++ BEGIN_CALL.data ++
          ('\n' :: (n.data ++ '\n' :: (argsRender a).data))) ++ END_CALL.data := rfl
      have hh : (((c :: cs ++ ['\n']) ++ BEGIN_CALL.data ++
          ('\n' :: (n.data ++ '\n' :: (argsRender a).data))) ++ END_CALL.data).head? = some c := by
        simp
      rw [hh]
      simpa using ht.1
  · have hlast : ((((t.data ++ ['\n']) ++ BEGIN_CALL.data ++
        ('\n' :: (n.data ++ '\n' :: (argsRender a).data))) ++ END_CALL.data)).getLast? =
        some '-' := by
      rw [List.getLast?_append_of_ne_nil _ EL_ne_nil]
      decide
    rw [hlast]
    decide

/-- C3: Round-trip law. For every well-formed function name and argument map
(name and argument names trimmed, nonempty and delimiter-free; values
delimiter-free; argument names distinct), rendering into the canonical
call-grammar template and parsing back yields the same name and the same
argument map, with each value trimmed of leading and trailing whitespace. -/
theorem claim_C3 (thought name : String) (args : List (String × String))
    (hname : wfName name = true)
    (hargs : ∀ p ∈ args, wfArg p = true)
    (hnodup : (args.map Prod.fst).Nodup) :
    parse (renderCall thought name args) = .ok ⟨pyStrip thought, name, trimValues args⟩ :=
  parse_renderCall thought name args hname hargs hnodup

/-- Witness for C3 at a concrete multi-argument call with an untrimmed,
multiline value. -/
theorem claim_C3_witness :
    parse (renderCall "thinking..." "run_bash_cmd" [("cmd", "  ls -la\ncat x  "), ("cwd", "/tmp")]) =
      .ok ⟨"thinking...", "run_bash_cmd", [("cmd", "ls -la\ncat x"), ("cwd", "/tmp")]⟩ := by
  have h := claim_C3 "thinking..." "run_bash_cmd" [("cmd", "  ls -la\ncat x  "), ("cwd", "/tmp")]
    (by decide) (by decide) (by decide)
  exact h.trans (by decide)

/-- C1: Last-match anchoring. For any text consisting of a complete rendered
call block A (arbitrary name/arguments, thought trimmed and nonempty),
arbitrary intervening text, and a complete well-formed call block B, `parse`
returns B's function name and B's (trimmed) arguments, and the returned
thought literally begins with block A's full rendered text: `parse` anchors on
the last end marker and the last begin marker before it. -/
theorem claim_C1 (tA nA : String) (aA : List (String × String)) (mid tB nB : String)
    (aB : List (String × String))
    (htA : trimmedNE tA.data = true)
    (hnB : wfName nB = true)
    (haB : ∀ p ∈ aB, wfArg p = true)
    (hnodupB : (aB.map Prod.fst).Nodup) :
    parse (renderCall tA nA aA ++ mid ++ renderCall tB nB aB) =
      .ok ⟨renderCall tA nA aA ++ pyRStrip (mid ++ tB), nB, trimValues aB⟩ := by
  have htext : renderCall tA nA aA ++ mid ++ renderCall tB nB aB =
      (renderCall tA nA aA ++ mid ++ tB) ++ "\n" ++ BEGIN_CALL ++ "\n" ++ nB ++ "\n" ++
        argsRender aB ++ END_CALL := by
    apply String.ext
    simp [renderCall, String.data_append]
  rw [htext, parse_renderCall _ nB aB hnB haB hnodupB]
  have hthought : pyStrip (renderCall tA nA aA ++ mid ++ tB) =
      renderCall tA nA aA ++ pyRStrip (mid ++ tB) := by
    unfold pyStrip pyRStrip
    have hd : (renderCall tA nA aA ++ mid ++ tB).data =
        (renderCall tA nA aA).data ++ (mid ++ tB).data := by
      simp [String.data_append]
    rw [hd, pyStripL_trimmed_append (renderCall_trimmedNE nA aA htA), asString_append,
      asString_data]
  rw [hthought]

/-- Witness for C1: block A (a full finish call) followed by prose and block B;
parse returns B's name/arguments and the thought starts with block A verbatim. -/
theorem claim_C1_witness :
    parse (renderCall "first" "finish" [("result", "r1")] ++ "\nprose\n" ++
        renderCall "second" "finish" [("result", "r2")]) =
      .ok ⟨renderCall "first" "finish" [("result", "r1")] ++ "\nprose\nsecond", "finish",
        [("result", "r2")]⟩ := by
  have h := claim_C1 "first" "finish" [("result", "r1")] "\nprose\n" "second" "finish"
    [("result", "r2")] (by decide) (by decide) (by decide) (by decide)
  exact h.trans (by decide)

theorem rfind_none_iff {l pat : List Char} :
    rfindL l pat = none ↔ containsL l pat = false := by
  constructor
  · intro h
    rw [not_contains_iff]
    intro hinf
    obtain ⟨i, hpre⟩ := infix_iff_drop.mp hinf
    exact rfindL_none h i hpre
  · intro h
    have hni := not_contains_iff.mp h
    have hpat : pat ≠ [] := by
      intro hnil
      subst hnil
      exact hni List.nil_infix
    cases hf : rfindL l pat with
    | none => rfl
    | some k => exact absurd (infix_of_pfx_drop (rfindL_some hpat hf).1) hni

theorem contains_iff_splitOnce {sec pat : List Char} :
    containsL sec pat = true ↔ ∃ np vp, splitOnceL pat sec = some (np, vp) := by
  unfold containsL splitOnceL
  cases hf : findOcc sec pat with
  | none => simp
  | some i => simp

theorem parseArgsL_ok_iff :
    ∀ (secs : List (List Char)) (acc : List (String × String)),
      exceptIsOk (parseArgsL secs acc) = true ↔
        ∀ sec ∈ secs, pyStripL sec = [] ∨
          (containsL sec VALUE_SEP.data = true ∧
            ∀ np vp, splitOnceL VALUE_SEP.data sec = some (np, vp) → pyStripL np ≠ []) := by
  intro secs
  induction secs with
  | nil =>
    intro acc
    simp [parseArgsL, exceptIsOk]
  | cons sec rest ih =>
    intro acc
    by_cases hblank : pyStripL sec = []
    · simp only [parseArgsL, if_pos hblank]
      rw [ih]
      constructor
      · intro h s hs
        rcases List.mem_cons.mp hs with rfl | hs
        · exact Or.inl hblank
        · exact h s hs
      · intro h s hs
        exact h s (List.mem_cons_of_mem _ hs)
    · simp only [parseArgsL, if_neg hblank]
      cases hsp : splitOnceL VALUE_SEP.data sec with
      | none =>
        simp only [exceptIsOk]
        constructor
        · intro h
          cases h
        · intro h
          rcases h sec (List.mem_cons_self _ _) with h1 | ⟨h2, -⟩
          · exact absurd h1 hblank
          · obtain ⟨np, vp, hnp⟩ := contains_iff_splitOnce.mp h2
            rw [hsp] at hnp
            cases hnp
      | some pr =>
        obtain ⟨np, vp⟩ := pr
        dsimp only
        by_cases hname : pyStripL np = []
        · rw [if_pos hname]
          simp only [exceptIsOk]
          constructor
          · intro h
            cases h
          · intro h
            rcases h sec (List.mem_cons_self _ _) with h1 | ⟨-, hall⟩
            · exact absurd h1 hblank
            · exact absurd hname (hall np vp hsp)
        · rw [if_neg hname]
          rw [ih]
          constructor
          · intro h s hs
            rcases List.mem_cons.mp hs with rfl | hs
            · refine Or.inr ⟨contains_iff_splitOnce.mpr ⟨np, vp, hsp⟩, ?_⟩
              intro np' vp' hsp'
              rw [hsp] at hsp'
              obtain ⟨rfl, rfl⟩ := Prod.mk.injEq np vp np' vp' ▸ (Option.some.injEq _ _ ▸ hsp')
              exact hname
            · exact h s hs
          · intro h s hs
            exact h s (List.mem_cons_of_mem _ hs)

/-- C2 (amended): `parse` fails exactly when (1) the end marker is absent, or
(2) no begin marker occurs before the last end marker, or (3) the call block
is empty/whitespace-only, or (4) a non-blank argument segment lacks the
`----VALUE----` separator, or (5) an argument name is empty after trimming, or
(6) the function name (the segment before the first `----ARG----`) is empty
after trimming — case (6) is the one the original claim omits; otherwise
`parse` returns a `ParsedCall`. -/
theorem claim_C2_amended (text : String) :
    exceptIsOk (parse text) = false ↔
      (failEndAbsent text = true ∨ failBeginAbsent text = true ∨ failEmptyBlock text = true ∨
        failMissingValueSep text = true ∨ failEmptyArgName text = true ∨
        failEmptyFunctionName text = true) := by
  simp only [parse]
  cases hE : rfindL text.data END_CALL.data with
  | none =>
    have hcond : failEndAbsent text = true := by
      unfold failEndAbsent containsStr
      rw [rfind_none_iff.mp hE]
      rfl
    simp only [exceptIsOk]
    exact ⟨fun _ => Or.inl hcond, fun _ => by trivial⟩
  | some e =>
    dsimp only
    have hcont : containsL text.data END_CALL.data = true := by
      cases hc : containsL text.data END_CALL.data with
      | false => rw [rfind_none_iff.mpr hc] at hE; cases hE
      | true => rfl
    have hEnd_false : failEndAbsent text = false := by
      unfold failEndAbsent containsStr
      rw [hcont]
      rfl
    cases hB : rfindL (text.data.take e) BEGIN_CALL.data with
    | none =>
      have hcond : failBeginAbsent text = true := by
        unfold failBeginAbsent
        rw [hE]
        dsimp only
        rw [rfind_none_iff.mp hB]
        rfl
      simp only [exceptIsOk]
      exact ⟨fun _ => Or.inr (Or.inl hcond), fun _ => by trivial⟩
    | some b =>
      dsimp only
      have hcontB : containsL (text.data.take e) BEGIN_CALL.data = true := by
        cases hc : containsL (text.data.take e) BEGIN_CALL.data with
        | false => rw [rfind_none_iff.mpr hc] at hB; cases hB
        | true => rfl
      have hBegin_false : failBeginAbsent text = false := by
        unfold failBeginAbsent
        rw [hE]
        dsimp only
        rw [hcontB]
        rfl
      have hcbOf : callBlockOf text =
          some (pyStripL ((text.data.take e).drop (b + BEGIN_CALL.data.length))) := by
        unfold callBlockOf
        rw [hE]
        dsimp only
        rw [hB]
      by_cases hcb : pyStripL ((text.data.take e).drop (b + BEGIN_CALL.data.length)) = []
      · rw [if_pos hcb]
        have hcond : failEmptyBlock text = true := by
          unfold failEmptyBlock
          rw [hcbOf]
          dsimp only
          rw [hcb]
          rfl
        simp only [exceptIsOk]
        exact ⟨fun _ => Or.inr (Or.inr (Or.inl hcond)), fun _ => by trivial⟩
      · rw [if_neg hcb]
        have hEmpty_false : failEmptyBlock text = false := by
          unfold failEmptyBlock
          rw [hcbOf]
          dsimp only
          simpa [List.isEmpty_iff] using hcb
        have hsecOf : argSections text =
            (splitOnL ARG_SEP.data
              (pyStripL ((text.data.take e).drop (b + BEGIN_CALL.data.length)))).tail := by
          unfold argSections
          rw [hcbOf]
        by_cases hfn : pyStripL ((splitOnL ARG_SEP.data
            (pyStripL ((text.data.take e).drop (b + BEGIN_CALL.data.length)))).headD []) = []
        · rw [if_pos hfn]
          have hcond : failEmptyFunctionName text = true := by
            unfold failEmptyFunctionName
            rw [hcbOf]
            dsimp only
            have h1 : (pyStripL ((text.data.take e).drop
                (b + BEGIN_CALL.data.length))).isEmpty = false := by
              simpa [List.isEmpty_iff] using hcb
            have h2 : (pyStripL ((splitOnL ARG_SEP.data
                (pyStripL ((text.data.take e).drop
                  (b + BEGIN_CALL.data.length)))).headD [])).isEmpty = true := by
              simpa [List.isEmpty_iff] using hfn
            rw [h1, h2]
            rfl
          simp only [exceptIsOk]
          exact ⟨fun _ => Or.inr (Or.inr (Or.inr (Or.inr (Or.inr hcond)))), fun _ => by trivial⟩
        · rw [if_neg hfn]
          have hfn_false : failEmptyFunctionName text = false := by
            unfold failEmptyFunctionName
            rw [hcbOf]
            dsimp only
            have h2 : (pyStripL ((splitOnL ARG_SEP.data
                (pyStripL ((text.data.take e).drop
                  (b + BEGIN_CALL.data.length)))).headD [])).isEmpty = false := by
              simpa [List.isEmpty_iff] using hfn
            rw [h2, Bool.and_false]
          cases hargs : parseArgsL (splitOnL ARG_SEP.data
              (pyStripL ((text.data.take e).drop (b + BEGIN_CALL.data.length)))).tail [] with
          | error err =>
            dsimp only
            simp only [exceptIsOk]
            refine ⟨fun _ => ?_, fun _ => by trivial⟩
            have hnot : ¬ (∀ sec ∈ (splitOnL ARG_SEP.data
                (pyStripL ((text.data.take e).drop (b + BEGIN_CALL.data.length)))).tail,
                pyStripL sec = [] ∨
                  (containsL sec VALUE_SEP.data = true ∧
                    ∀ np vp, splitOnceL VALUE_SEP.data sec = some (np, vp) →
                      pyStripL np ≠ [])) := by
              intro hall
              have := (parseArgsL_ok_iff _ []).mpr hall
              rw [hargs] at this
              cases this
            push_neg at hnot
            obtain ⟨sec, hmem, hsec⟩ := hnot
            have hnonblank : pyStripL sec ≠ [] := hsec.1
            by_cases hcv : containsL sec VALUE_SEP.data = true
            · obtain ⟨np, vp, hsp, hnp⟩ := hsec.2 hcv
              refine Or.inr (Or.inr (Or.inr (Or.inr (Or.inl ?_))))
              unfold failEmptyArgName
              rw [hsecOf, List.any_eq_true]
              refine ⟨sec, hmem, ?_⟩
              rw [hsp]
              simp [List.isEmpty_iff, hnonblank, hnp]
            · refine Or.inr (Or.inr (Or.inr (Or.inl ?_)))
              unfold failMissingValueSep
              rw [hsecOf, List.any_eq_true]
              refine ⟨sec, hmem, ?_⟩
              have hfalse : containsL sec VALUE_SEP.data = false := by
                cases h : containsL sec VALUE_SEP.data with
                | false => rfl
                | true => exact absurd h hcv
              simp [List.isEmpty_iff, hnonblank, hfalse]
          | ok res =>
            dsimp only
            simp only [exceptIsOk]
            constructor
            · intro h
              cases h
            · intro h
              exfalso
              have hall := (parseArgsL_ok_iff _ []).mp (by rw [hargs]; rfl)
              have hMissing_false : failMissingValueSep text = false := by
                unfold failMissingValueSep
                rw [hsecOf, List.any_eq_false]
                intro sec hmem
                rcases hall sec hmem with h1 | ⟨h2, -⟩
                · simp [List.isEmpty_iff, h1]
                · simp [h2]
              have hArg_false : failEmptyArgName text = false := by
                unfold failEmptyArgName
                rw [hsecOf, List.any_eq_false]
                intro sec hmem
                rcases hall sec hmem with h1 | ⟨h2, hnames⟩
                · simp [List.isEmpty_iff, h1]
                · obtain ⟨np, vp, hsp⟩ := contains_iff_splitOnce.mp h2
                  rw [hsp]
                  simp [List.isEmpty_iff, hnames np vp hsp]
              rcases h with h | h | h | h | h | h
              · rw [hEnd_false] at h; cases h
              · rw [hBegin_false] at h; cases h
              · rw [hEmpty_false] at h; cases h
              · rw [hMissing_false] at h; cases h
              · rw [hArg_false] at h; cases h
              · rw [hfn_false] at h; cases h

/-- C2 counterexample: a text whose call block starts directly with
`----ARG----` (empty function name). `parse` fails, yet all five failure
conditions listed by the claim are false, so the claim's "otherwise returns a
ParsedCall" direction is violated. -/
theorem claim_C2_counterexample :
    exceptIsOk (parse ("----BEGIN_FUNCTION_CALL----\n----ARG----\nx\n----VALUE----\ny\n" ++
        "----END_FUNCTION_CALL----")) = false ∧
    parse ("----BEGIN_FUNCTION_CALL----\n----ARG----\nx\n----VALUE----\ny\n" ++
        "----END_FUNCTION_CALL----") = .error "Function name is missing." ∧
    failEndAbsent ("----BEGIN_FUNCTION_CALL----\n----ARG----\nx\n----VALUE----\ny\n" ++
        "----END_FUNCTION_CALL----") = false ∧
    failBeginAbsent ("----BEGIN_FUNCTION_CALL----\n----ARG----\nx\n----VALUE----\ny\n" ++
        "----END_FUNCTION_CALL----") = false ∧
    failEmptyBlock ("----BEGIN_FUNCTION_CALL----\n----ARG----\nx\n----VALUE----\ny\n" ++
        "----END_FUNCTION_CALL----") = false ∧
    failMissingValueSep ("----BEGIN_FUNCTION_CALL----\n----ARG----\nx\n----VALUE----\ny\n" ++
        "----END_FUNCTION_CALL----") = false ∧
    failEmptyArgName ("----BEGIN_FUNCTION_CALL----\n----ARG----\nx\n----VALUE----\ny\n" ++
        "----END_FUNCTION_CALL----") = false := by
  decide

theorem rdropWS_pfx (l : List Char) : rdropWS l <+: l := by
  unfold rdropWS
  have h1 : l.reverse.dropWhile isPySpace <:+ l.reverse := List.dropWhile_suffix isPySpace
  have h2 : (l.reverse.dropWhile isPySpace).reverse <+: l.reverse.reverse :=
    List.reverse_prefix.mpr h1
  rwa [List.reverse_reverse] at h2

theorem pyStripL_inf (l : List Char) : pyStripL l <:+: l := by
  unfold pyStripL
  exact ((rdropWS_pfx (ldropWS l)).isInfix).trans (List.dropWhile_suffix isPySpace).isInfix

theorem dictInsert_mem {m : List (String × String)} {k v : String} :
    ∀ q ∈ dictInsert m k v, q ∈ m ∨ q = (k, v) := by
  intro q hq
  unfold dictInsert at hq
  by_cases hany : (m.any fun p => p.1 == k) = true
  · rw [if_pos hany] at hq
    obtain ⟨orig, horig, heq⟩ := List.mem_map.mp hq
    by_cases hk : orig.1 == k
    · rw [if_pos hk] at heq
      exact Or.inr heq.symm
    · rw [if_neg hk] at heq
      exact Or.inl (heq ▸ horig)
  · rw [if_neg hany] at hq
    rcases List.mem_append.mp hq with h | h
    · exact Or.inl h
    · exact Or.inr (List.mem_singleton.mp h)

theorem parseArgsL_values :
    ∀ (secs : List (List Char)) (acc res : List (String × String)),
      parseArgsL secs acc = .ok res →
      ∀ kv ∈ res, kv ∈ acc ∨ ∃ sec ∈ secs, ∃ j, kv.2.data = pyStripL (sec.drop j) := by
  intro secs
  induction secs with
  | nil =>
    intro acc res h kv hkv
    simp only [parseArgsL] at h
    obtain rfl : acc = res := by
      cases h
      rfl
    exact Or.inl hkv
  | cons sec rest ih =>
    intro acc res h kv hkv
    simp only [parseArgsL] at h
    by_cases hblank : pyStripL sec = []
    · rw [if_pos hblank] at h
      rcases ih acc res h kv hkv with h1 | ⟨s, hs, j, hj⟩
      · exact Or.inl h1
      · exact Or.inr ⟨s, List.mem_cons_of_mem _ hs, j, hj⟩
    · rw [if_neg hblank] at h
      cases hsp : splitOnceL VALUE_SEP.data sec with
      | none =>
        rw [hsp] at h
        cases h
      | some pr =>
        obtain ⟨np, vp⟩ := pr
        rw [hsp] at h
        dsimp only at h
        by_cases hname : pyStripL np = []
        · rw [if_pos hname] at h
          cases h
        · rw [if_neg hname] at h
          rcases ih _ res h kv hkv with h1 | ⟨s, hs, j, hj⟩
          · rcases dictInsert_mem kv h1 with h2 | h2
            · exact Or.inl h2
            · refine Or.inr ⟨sec, List.mem_cons_self _ _, ?_⟩
              unfold splitOnceL at hsp
              cases hf : findOcc sec VALUE_SEP.data with
              | none => rw [hf] at hsp; cases hsp
              | some i =>
                rw [hf] at hsp
                dsimp only at hsp
                obtain ⟨hnp, hvp⟩ : np = sec.take i ∧ vp = sec.drop (i + VALUE_SEP.data.length) := by
                  have := Option.some.inj hsp
                  exact ⟨(congrArg Prod.fst this).symm, (congrArg Prod.snd this).symm⟩
                refine ⟨i + VALUE_SEP.data.length, ?_⟩
                rw [h2]
                show ((pyStripL vp).asString).data = _
                rw [data_asString, hvp]
          · exact Or.inr ⟨s, List.mem_cons_of_mem _ hs, j, hj⟩

/-- Values produced by a successful `parse` can never contain the begin marker
or the argument separator: splitting removes every `----ARG----` occurrence,
and nothing after the anchored begin marker contains
`----BEGIN_FUNCTION_CALL----`. -/
theorem parse_values_clean {text : String} {p : ParsedCall} (h : parse text = .ok p) :
    ∀ kv ∈ p.arguments,
      ¬ BEGIN_CALL.data <:+: kv.2.data ∧ ¬ ARG_SEP.data <:+: kv.2.data := by
  intro kv hkv
  revert h
  simp only [parse]
  cases hE : rfindL text.data END_CALL.data with
  | none => intro h; cases h
  | some e =>
    dsimp only
    cases hB : rfindL (text.data.take e) BEGIN_CALL.data with
    | none => intro h; cases h
    | some b =>
      dsimp only
      by_cases hcb : pyStripL ((text.data.take e).drop (b + BEGIN_CALL.data.length)) = []
      · rw [if_pos hcb]; intro h; cases h
      · rw [if_neg hcb]
        by_cases hfn : pyStripL ((splitOnL ARG_SEP.data
            (pyStripL ((text.data.take e).drop (b + BEGIN_CALL.data.length)))).headD []) = []
        · rw [if_pos hfn]; intro h; cases h
        · rw [if_neg hfn]
          cases hargs : parseArgsL (splitOnL ARG_SEP.data
              (pyStripL ((text.data.take e).drop (b + BEGIN_CALL.data.length)))).tail [] with
          | error err => intro h; cases h
          | ok res =>
            intro h
            have hres : p.arguments = res := by
              cases h
              rfl
            have hprov := parseArgsL_values _ [] res hargs kv (hres ▸ hkv)
            rcases hprov with h1 | ⟨sec, hsec, j, hj⟩
            · cases h1
            have hsec' : sec ∈ splitOnL ARG_SEP.data
                (pyStripL ((text.data.take e).drop (b + BEGIN_CALL.data.length))) :=
              List.mem_of_mem_tail hsec
            have hvinf : kv.2.data <:+: sec := by
              rw [hj]
              exact (pyStripL_inf _).trans (List.drop_suffix _ _).isInfix
            constructor
            · -- no BEGIN marker after the anchored begin index
              intro hBinf
              have hcbinf : BEGIN_CALL.data <:+:
                  (text.data.take e).drop (b + BEGIN_CALL.data.length) :=
                ((hBinf.trans hvinf).trans (splitOnL_parts_inf sec hsec')).trans
                  (pyStripL_inf _)
              obtain ⟨i, hpre⟩ := infix_iff_drop.mp hcbinf
              rw [List.drop_drop] at hpre
              have hmax := (rfindL_some BL_ne_nil hB).2 (b + BEGIN_CALL.data.length + i)
                (by
                  have : 1 ≤ BEGIN_CALL.data.length := by decide
                  omega)
              exact hmax hpre
            · -- the split removed every ARG separator
              intro hAinf
              exact splitOnL_parts_no_sep AL_ne_nil sec hsec' (hAinf.trans hvinf)

/-- C6: Argument sanitization. For every string-valued argument of a parsed
call that contains one of the four grammar delimiters, `_sanitize_arguments`
truncates the value at the first occurrence of that delimiter, keeping the
right-trimmed prefix.  Since parsed values can never contain the begin marker
or the argument separator (`parse_values_clean`), the contained delimiter is
the end marker when present — in particular a value containing
`----END_FUNCTION_CALL----` is truncated to the text preceding that marker —
and otherwise the value separator. -/
theorem claim_C6 (text : String) (p : ParsedCall) (h : parse text = .ok p)
    (k v : String) (hmem : (k, v) ∈ p.arguments)
    (hany : (ReactAgent.markers.any fun m => containsStr v m) = true) :
    (containsStr v END_CALL = true →
      ∃ i, findOcc v.data END_CALL.data = some i ∧
        ReactAgent.sanitizeValue v = (rdropWS (v.data.take i)).asString) ∧
    (containsStr v END_CALL = false →
      containsStr v VALUE_SEP = true ∧
      ∃ i, findOcc v.data VALUE_SEP.data = some i ∧
        ReactAgent.sanitizeValue v = (rdropWS (v.data.take i)).asString) := by
  obtain ⟨hnB, hnA⟩ := parse_values_clean h (k, v) hmem
  have hB_false : containsStr v BEGIN_CALL = false := not_contains_iff.mpr hnB
  have hA_false : containsStr v ARG_SEP = false := not_contains_iff.mpr hnA
  constructor
  · intro hEnd
    obtain ⟨i, hi⟩ : ∃ i, findOcc v.data END_CALL.data = some i := by
      have : (findOcc v.data END_CALL.data).isSome = true := hEnd
      exact Option.isSome_iff_exists.mp this
    refine ⟨i, hi, ?_⟩
    have hf : (ReactAgent.markers.find? fun m => containsStr v m) = some END_CALL := by
      unfold ReactAgent.markers
      rw [List.find?_cons_of_neg _ (by simp [hB_false]), List.find?_cons_of_pos _ hEnd]
    unfold ReactAgent.sanitizeValue
    rw [hf]
    dsimp only
    unfold splitOnceL
    rw [hi]
  · intro hEnd
    have hV : containsStr v VALUE_SEP = true := by
      unfold ReactAgent.markers at hany
      simp only [List.any_cons, List.any_nil, Bool.or_false] at hany
      rw [hB_false, hEnd, hA_false] at hany
      simpa using hany
    obtain ⟨i, hi⟩ : ∃ i, findOcc v.data VALUE_SEP.data = some i := by
      have : (findOcc v.data VALUE_SEP.data).isSome = true := hV
      exact Option.isSome_iff_exists.mp this
    refine ⟨hV, i, hi, ?_⟩
    have hf : (ReactAgent.markers.find? fun m => containsStr v m) = some VALUE_SEP := by
      unfold ReactAgent.markers
      rw [List.find?_cons_of_neg _ (by simp [hB_false]),
        List.find?_cons_of_neg _ (by simp [hEnd]),
        List.find?_cons_of_neg _ (by simp [hA_false]),
        List.find?_cons_of_pos _ hV]
    unfold ReactAgent.sanitizeValue
    rw [hf]
    dsimp only
    unfold splitOnceL
    rw [hi]

/-- Witness for C6: a really parsed call whose `result` value embeds a stray
end marker; sanitization truncates it to the text before that marker. -/
theorem claim_C6_witness :
    ReactAgent.sanitizeValue "abc----END_FUNCTION_CALL----def" = "abc" := by
  have h := (claim_C6
    ("t\n----BEGIN_FUNCTION_CALL----\nfinish\n----ARG----\nresult\n----VALUE----\nabc----END_FUNCTION_CALL----def\n----END_FUNCTION_CALL----")
    ⟨"t", "finish", [("result", "abc----END_FUNCTION_CALL----def")]⟩ (by decide)
    "result" "abc----END_FUNCTION_CALL----def" (by decide) (by decide)).1 (by decide)
  obtain ⟨i, hi, hs⟩ := h
  have hd : findOcc ("abc----END_FUNCTION_CALL----def" : String).data END_CALL.data =
      some 3 := by decide
  have h3 : 3 = i := Option.some.inj (hd.symm.trans hi)
  rw [hs, ← h3]
  decide

end ResponseParser

namespace ReactAgent

open ReactSwe.ResponseParser

theorem add_message_function_map (st : AgentState) (r c : String) :
    (add_message st r c).1.function_map = st.function_map := rfl

theorem runSteps_resolved_not_polluted (llm : Nat → String) (ms n : Nat) (st : AgentState)
    (fa step : Nat) (pc : ParsedCall) (t : Tool)
    (hparse : ResponseParser.parse (llm step) = .ok pc)
    (hres : resolveTool st.function_map pc.name = some t)
    (hpol : isPolluted (sanitize_arguments pc.arguments) = false) :
    runSteps llm ms (n + 1) st fa step =
      if t.isFinish then
        if pyStrip (toolResultText (t.call (sanitize_arguments pc.arguments))) = "" then
          runSteps llm ms n (emptyFinishState st (llm step) pc t) (fa + 1) (step + 1)
        else
          (finishReturnState st (llm step) pc t fa,
            .ok (toolResultText (t.call (sanitize_arguments pc.arguments))))
      else
        runSteps llm ms n (toolStepState st (llm step) pc t) fa (step + 1) := by
  simp only [runSteps]
  rw [hparse]
  dsimp only
  rw [add_message_function_map, hres]
  dsimp only
  rw [hpol]
  simp only [Bool.false_eq_true, if_false]
  rfl

/-- The stored `finish` tool fails the identity test of `agent.py` line 261
(`tool is self.finish` compares the bound method stored in `__init__` against
a freshly created one, which CPython never makes identical), so even a model
that always emits a perfect finish call with a non-empty result never returns
through the finish branch: the run exhausts its step budget and raises
`LimitsExceeded`. -/
theorem perfect_finish_still_exhausts :
    finish.isFinish = false ∧
    (run (fun _ =>
        "ok\n----BEGIN_FUNCTION_CALL----\nfinish\n----ARG----\nresult\n----VALUE----\ndone\n----END_FUNCTION_CALL----")
      initAgent "task" 2).2 =
      .error (.limitsExceeded "Reached 2 steps without calling finish.") := by
  exact ⟨rfl, by decide⟩

/-- C7: Pollution defense. In any iteration whose response parses to a call
that resolves to a registered tool but whose sanitized argument values still
contain a grammar delimiter, the call is treated as polluted: the corrective
system message is appended (after the assistant message), the resolved tool is
not invoked, and the loop continues with the next step unchanged otherwise. -/
theorem claim_C7 (llm : Nat → String) (ms n : Nat) (st : AgentState)
    (fa step : Nat) (pc : ParsedCall) (t : Tool)
    (hparse : ResponseParser.parse (llm step) = .ok pc)
    (hres : resolveTool st.function_map pc.name = some t)
    (hpol : isPolluted (sanitize_arguments pc.arguments) = true) :
    runSteps llm ms (n + 1) st fa step =
      runSteps llm ms n (pollutedState st (llm step)) fa (step + 1) := by
  simp only [runSteps]
  rw [hparse]
  dsimp only
  rw [add_message_function_map, hres]
  dsimp only
  rw [hpol]
  simp only [if_true]
  rfl

/-- Witness for C7: a real response whose parsed `result` value still contains
`----VALUE----` after sanitization (the value embeds both a stray value
separator and a stray end marker, and sanitization truncates at the end
marker, leaving the value separator behind); the loop appends the corrective
message and recurses without invoking finish. -/
theorem claim_C7_witness :
    runSteps (fun _ =>
        "t\n----BEGIN_FUNCTION_CALL----\nfinish\n----ARG----\nresult\n----VALUE----\na----VALUE----b----END_FUNCTION_CALL----c\n----END_FUNCTION_CALL----")
      2 2 initAgent 0 0 =
      runSteps (fun _ =>
        "t\n----BEGIN_FUNCTION_CALL----\nfinish\n----ARG----\nresult\n----VALUE----\na----VALUE----b----END_FUNCTION_CALL----c\n----END_FUNCTION_CALL----")
      2 1 (pollutedState initAgent
        "t\n----BEGIN_FUNCTION_CALL----\nfinish\n----ARG----\nresult\n----VALUE----\na----VALUE----b----END_FUNCTION_CALL----c\n----END_FUNCTION_CALL----")
      0 1 := by
  exact claim_C7 (fun _ =>
      "t\n----BEGIN_FUNCTION_CALL----\nfinish\n----ARG----\nresult\n----VALUE----\na----VALUE----b----END_FUNCTION_CALL----c\n----END_FUNCTION_CALL----")
    2 1 initAgent 0 0
    ⟨"t", "finish", [("result", "a----VALUE----b----END_FUNCTION_CALL----c")]⟩ finish
    (by decide) rfl (by decide)

theorem pyStrip_pyExcText_ne (e : PyExc) : pyStrip (pyExcText e) ≠ "" := by
  intro h
  have hmem : ':' ∈ (pyExcText e).data := by
    unfold pyExcText
    rw [String.data_append, String.data_append]
    refine List.mem_append.mpr (Or.inl (List.mem_append.mpr (Or.inr ?_)))
    decide
  have hne := pyStripL_ne_nil_of_mem hmem (by decide)
  apply hne
  have hdata : (pyStrip (pyExcText e)).data = ("" : String).data := congrArg String.data h
  rw [pyStrip, data_asString] at hdata
  exact hdata

theorem add_message_length (st : AgentState) (r c : String) :
    (add_message st r c).1.id_to_message.length = st.id_to_message.length + 1 := by
  simp [add_message]

theorem length_setContentAt : ∀ (l : List Message) (i : Nat) (c : String),
    (setContentAt l i c).length = l.length := by
  intro l
  induction l with
  | nil => intro i c; rfl
  | cons m rest ih =>
    intro i c
    cases i with
    | zero => rfl
    | succ j => simpa [setContentAt] using ih j c

theorem map_role_setContentAt : ∀ (l : List Message) (i : Nat) (c : String),
    (setContentAt l i c).map Message.role = l.map Message.role := by
  intro l
  induction l with
  | nil => intro i c; rfl
  | cons m rest ih =>
    intro i c
    cases i with
    | zero => rfl
    | succ j => simpa [setContentAt] using ih j c

theorem runSteps_all_parse_failures (llm : Nat → String) (ms : Nat)
    (hbad : ∀ k, exceptIsOk (ResponseParser.parse (llm k)) = false) :
    ∀ (n : Nat) (st : AgentState) (fa step : Nat),
      (runSteps llm ms n st fa step).2 =
        .error (.limitsExceeded ("Reached " ++ toString ms ++ " steps without calling finish.")) ∧
      (runSteps llm ms n st fa step).1.id_to_message.length =
        st.id_to_message.length + 2 * n ∧
      (runSteps llm ms n st fa step).1.id_to_message.map Message.role =
        st.id_to_message.map Message.role ++
          (List.replicate n ["assistant", "system"]).flatten := by
  intro n
  induction n with
  | zero =>
    intro st fa step
    refine ⟨rfl, rfl, ?_⟩
    show st.id_to_message.map Message.role = _
    simp
  | succ n ih =>
    intro st fa step
    have hb := hbad step
    cases hp : ResponseParser.parse (llm step) with
    | ok pc =>
      rw [hp] at hb
      cases hb
    | error e =>
      have hunfold : runSteps llm ms (n + 1) st fa step =
          runSteps llm ms n
            (add_message (add_message st "assistant" (llm step)).1 "system" (parseErrorMsg e)).1
            fa (step + 1) := by
        simp only [runSteps]
        rw [hp]
      rw [hunfold]
      obtain ⟨h1, h2, h3⟩ := ih
        (add_message (add_message st "assistant" (llm step)).1 "system" (parseErrorMsg e)).1
        fa (step + 1)
      refine ⟨h1, ?_, ?_⟩
      · rw [h2, add_message_length, add_message_length]
        omega
      · rw [h3]
        have hroles :
            (add_message (add_message st "assistant" (llm step)).1 "system"
                (parseErrorMsg e)).1.id_to_message.map Message.role =
              st.id_to_message.map Message.role ++ ["assistant", "system"] := by
          simp [add_message]
        rw [hroles, List.replicate_succ, List.flatten_cons]
        simp

/-- C5 (amended): Loop exhaustion. `run` first clamps its step budget to
`min(max_steps, 100)`. If the model collaborator's text fails to parse on
every iteration, `run` raises the step-budget error (`LimitsExceeded`, the
spec's `StepBudgetExceeded`) naming exactly `min(max_steps, 100)` steps after
exactly that many iterations, and each of those iterations appends exactly
two messages — the assistant message carrying the model text, then the
corrective message appended with role `"system"` — so the roles appended
after the task message are `min(max_steps, 100)` copies of
`[assistant, system]` and each parse failure counts against the budget. -/
theorem claim_C5_amended (llm : Nat → String) (st : AgentState) (task : String)
    (max_steps : Int)
    (hbad : ∀ k, exceptIsOk (ResponseParser.parse (llm k)) = false)
    (hpos : 0 < max_steps)
    (hvalid : st.user_message_id < st.id_to_message.length) :
    (run llm st task max_steps).2 =
      .error (.limitsExceeded ("Reached " ++ toString ((min max_steps 100).toNat) ++
        " steps without calling finish.")) ∧
    (run llm st task max_steps).1.id_to_message.length =
      st.id_to_message.length + 2 * (min max_steps 100).toNat ∧
    (run llm st task max_steps).1.id_to_message.map Message.role =
      st.id_to_message.map Message.role ++
        (List.replicate (min max_steps 100).toNat ["assistant", "system"]).flatten := by
  unfold run
  rw [if_neg (by omega)]
  have hset : set_message_content st (st.user_message_id : Int) (pyStrip task) =
      .ok { st with
        id_to_message := setContentAt st.id_to_message st.user_message_id (pyStrip task) } := by
    unfold set_message_content
    rw [if_pos (by constructor <;> [positivity; exact_mod_cast hvalid])]
    rfl
  rw [hset]
  dsimp only
  obtain ⟨h1, h2, h3⟩ := runSteps_all_parse_failures llm (min max_steps 100).toNat hbad
    (min max_steps 100).toNat
    { st with id_to_message := setContentAt st.id_to_message st.user_message_id (pyStrip task) }
    0 0
  refine ⟨h1, ?_, ?_⟩
  · rw [h2]
    show (setContentAt st.id_to_message st.user_message_id (pyStrip task)).length + _ = _
    rw [length_setContentAt]
  · rw [h3]
    show (setContentAt st.id_to_message st.user_message_id (pyStrip task)).map Message.role ++ _ = _
    rw [map_role_setContentAt]

/-- Witness for C5 (amended) at a concrete always-unparsable model: three
iterations, eight messages, appended roles three copies of
`[assistant, system]` after the constructor's `[system, user]`. -/
theorem claim_C5_amended_witness :
    (run (fun _ => "no call") initAgent "task" 3).2 =
      .error (.limitsExceeded "Reached 3 steps without calling finish.") ∧
    (run (fun _ => "no call") initAgent "task" 3).1.id_to_message.length = 8 ∧
    (run (fun _ => "no call") initAgent "task" 3).1.id_to_message.map Message.role =
      ["system", "user", "assistant", "system", "assistant", "system", "assistant", "system"] := by
  have h := claim_C5_amended (fun _ => "no call") initAgent "task" 3
    (fun _ => (by decide : exceptIsOk (ResponseParser.parse "no call") = false)) (by decide) (by decide)
  refine ⟨h.1.trans ?_, h.2.1.trans (by decide), h.2.2.trans (by decide)⟩
  rfl

/-- C5 counterexample: with `max_steps = 101` and an always-unparsable model,
the loop is clamped to 100 iterations — the error names 100 steps and exactly
2 · 100 = 200 messages are appended, not 2 · 101 — refuting "after exactly
`max_steps` iterations" as stated. -/
theorem claim_C5_counterexample :
    (run (fun _ => "no call") initAgent "task" 101).2 =
      .error (.limitsExceeded "Reached 100 steps without calling finish.") ∧
    (run (fun _ => "no call") initAgent "task" 101).1.id_to_message.length =
      initAgent.id_to_message.length + 2 * 100 ∧
    initAgent.id_to_message.length + 2 * 100 ≠ initAgent.id_to_message.length + 2 * 101 := by
  refine ⟨?_, ?_, by decide⟩
  · have h := claim_C5_amended (fun _ => "no call") initAgent "task" 101
      (fun _ => (by decide : exceptIsOk (ResponseParser.parse "no call") = false)) (by decide) (by decide)
    exact h.1.trans rfl
  · have h := claim_C5_amended (fun _ => "no call") initAgent "task" 101
      (fun _ => (by decide : exceptIsOk (ResponseParser.parse "no call") = false)) (by decide) (by decide)
    exact h.2.1.trans (by decide)

theorem idsOf_add_message (st : AgentState) (r c : String) :
    idsOf (add_message st r c).1 = idsOf st ++ [st.next_message_id] := by
  simp [idsOf, add_message]

theorem idsOf_appendAll :
    ∀ (msgs : List (String × String)) (st : AgentState),
      idsOf (appendAll st msgs) = idsOf st ++ List.range' st.next_message_id msgs.length ∧
      (appendAll st msgs).next_message_id = st.next_message_id + msgs.length := by
  intro msgs
  induction msgs with
  | nil =>
    intro st
    exact ⟨by simp [appendAll], rfl⟩
  | cons rc rest ih =>
    intro st
    have hstep : appendAll st (rc :: rest) = appendAll (add_message st rc.1 rc.2).1 rest := rfl
    obtain ⟨h1, h2⟩ := ih (add_message st rc.1 rc.2).1
    constructor
    · rw [hstep, h1, idsOf_add_message]
      have hnext : (add_message st rc.1 rc.2).1.next_message_id = st.next_message_id + 1 := rfl
      rw [hnext]
      simp only [List.length_cons, List.range'_succ]
      simp
    · rw [hstep, h2]
      have hnext : (add_message st rc.1 rc.2).1.next_message_id = st.next_message_id + 1 := rfl
      rw [hnext]
      simp
      omega

theorem idsOf_setContentAt : ∀ (l : List Message) (i : Nat) (c : String),
    (setContentAt l i c).map Message.unique_id = l.map Message.unique_id := by
  intro l
  induction l with
  | nil => intro i c; rfl
  | cons m rest ih =>
    intro i c
    cases i with
    | zero => rfl
    | succ j => simpa [setContentAt] using ih j c

/-- C8: Message-id invariant. Starting from any store whose ids are exactly
`0, 1, …, next_message_id - 1` in order (as the constructor guarantees),
appending any batch of messages yields ids `0, 1, …` strictly increasing from
0; updating the content of any message by a valid id changes no message's id;
and updating with an id outside `[0, count)` fails with the range error (the
pure state is returned unchanged alongside the raised error). -/
theorem claim_C8 (st : AgentState) (msgs : List (String × String)) (i : Int) (c : String)
    (hinv : idsOf st = List.range st.next_message_id) :
    idsOf (appendAll st msgs) = List.range (st.next_message_id + msgs.length) ∧
    (∀ st', set_message_content (appendAll st msgs) i c = .ok st' →
      idsOf st' = idsOf (appendAll st msgs)) ∧
    (¬ (0 ≤ i ∧ i < ((appendAll st msgs).id_to_message.length : Int)) →
      set_message_content (appendAll st msgs) i c =
        .error ("Message id " ++ toString i ++ " is out of range.")) := by
  obtain ⟨h1, -⟩ := idsOf_appendAll msgs st
  refine ⟨?_, ?_, ?_⟩
  · rw [h1, hinv, List.range'_eq_map_range, List.range_add]
  · intro st' hok
    unfold set_message_content at hok
    by_cases hrange : 0 ≤ i ∧ i < (((appendAll st msgs).id_to_message.length : Nat) : Int)
    · rw [if_pos hrange] at hok
      obtain rfl : { appendAll st msgs with
          id_to_message := setContentAt (appendAll st msgs).id_to_message i.toNat c } = st' := by
        cases hok
        rfl
      unfold idsOf
      exact idsOf_setContentAt _ _ _
    · rw [if_neg hrange] at hok
      cases hok
  · intro hrange
    unfold set_message_content
    rw [if_neg hrange]

/-- Witness for C8: from the constructor's store (ids 0, 1), two appends give
ids `[0, 1, 2, 3]`, an in-range update leaves ids unchanged, and an
out-of-range update fails with the range error. -/
theorem claim_C8_witness :
    idsOf (appendAll initAgent [("user", "a"), ("assistant", "b")]) = [0, 1, 2, 3] ∧
    (∀ st', set_message_content (appendAll initAgent [("user", "a"), ("assistant", "b")]) 0 "c" =
        .ok st' →
      idsOf st' = idsOf (appendAll initAgent [("user", "a"), ("assistant", "b")])) ∧
    set_message_content (appendAll initAgent [("user", "a"), ("assistant", "b")]) 9 "c" =
      .error ("Message id " ++ toString (9 : Int) ++ " is out of range.") := by
  have h := claim_C8 initAgent [("user", "a"), ("assistant", "b")] 0 "c" (by decide)
  have h9 := claim_C8 initAgent [("user", "a"), ("assistant", "b")] 9 "c" (by decide)
  exact ⟨h.1.trans (by decide), h.2.1, h9.2.2 (by decide)⟩

/-- C9: Tool-message rendering. A tool-result message that is the most
recently appended entry is rendered verbatim (header plus untruncated
content); a tool-result message that is no longer the last entry and whose
content exceeds 2048 characters is rendered as its 1024-character head and
512-character tail around the literal elision marker, which reports exactly
`original_length - head_length - tail_length` omitted characters. -/
theorem claim_C9 (st : AgentState) (i : Nat) (m : Message)
    (hm : st.id_to_message.get? i = some m) (hrole : m.role = "tool") :
    (i = st.id_to_message.length - 1 →
      message_id_to_context st i =
        some ("----------------------------\n|MESSAGE(role=\"" ++ m.role ++ "\", id=" ++
          toString m.unique_id ++ ")|\n" ++ m.content ++ "\n")) ∧
    (i ≠ st.id_to_message.length - 1 → m.content.data.length > 2048 →
      message_id_to_context st i =
        some ("----------------------------\n|MESSAGE(role=\"" ++ m.role ++ "\", id=" ++
          toString m.unique_id ++ ")|\n" ++
          ((m.content.data.take 1024).asString ++ "\n... [TRUNCATED " ++
            toString (m.content.data.length - (1024 + 512)) ++ " CHARS] ...\n" ++
            (m.content.data.drop (m.content.data.length - 512)).asString) ++ "\n") ∧
      m.content.data.length - (1024 + 512) =
        m.content.data.length -
          ((m.content.data.take 1024).length +
            (m.content.data.drop (m.content.data.length - 512)).length)) := by
  have hns : ¬ m.role = "system" := by
    rw [hrole]
    decide
  constructor
  · intro hlast
    unfold message_id_to_context
    rw [hm]
    dsimp only
    rw [if_pos hrole, if_neg (by omega : ¬ i ≠ st.id_to_message.length - 1), if_neg hns]
  · intro hnot hlen
    have hhead : (m.content.data.take 1024).length = 1024 := by
      rw [List.length_take]
      omega
    have htail : (m.content.data.drop (m.content.data.length - 512)).length = 512 := by
      rw [List.length_drop]
      omega
    constructor
    · unfold message_id_to_context
      rw [hm]
      dsimp only
      rw [if_pos hrole, if_pos hnot, if_pos hlen, if_neg hns]
      rw [hhead, htail]
    · rw [hhead, htail]

set_option maxRecDepth 4000 in
/-- Witness for C9: a 2049-character tool message that is no longer the last
entry is rendered truncated, with the marker reporting 2049 - 1024 - 512 = 513
omitted characters. -/
theorem claim_C9_witness :
    message_id_to_context
      (appendAll emptyAgent [("tool", (List.replicate 2049 'a').asString), ("tool", "short")]) 0 =
      some ("----------------------------\n|MESSAGE(role=\"" ++ "tool" ++ "\", id=" ++
        toString (0 : Nat) ++ ")|\n" ++
        (((List.replicate 2049 'a').asString.data.take 1024).asString ++ "\n... [TRUNCATED " ++
          toString ((List.replicate 2049 'a').asString.data.length - (1024 + 512)) ++
          " CHARS] ...\n" ++
          ((List.replicate 2049 'a').asString.data.drop
            ((List.replicate 2049 'a').asString.data.length - 512)).asString) ++ "\n") ∧
    (List.replicate 2049 'a').asString.data.length - (1024 + 512) = 513 := by
  have hlen : ((List.replicate 2049 'a').asString).data.length > 2048 := by
    rw [data_asString, List.length_replicate]
    decide
  have h0 := claim_C9
    (appendAll emptyAgent [("tool", (List.replicate 2049 'a').asString), ("tool", "short")]) 0
    ⟨"tool", (List.replicate 2049 'a').asString, 0, 0⟩ rfl rfl
  have hne : (0 : Nat) ≠ (appendAll emptyAgent
      [("tool", (List.replicate 2049 'a').asString), ("tool", "short")]).id_to_message.length - 1 := by
    decide
  have h := h0.2 hne hlen
  dsimp only at h
  refine ⟨h.1, ?_⟩
  rw [data_asString, List.length_replicate]
